import Mathlib

/-!
Verification of an X25519 / Ed25519 implementation.

This file gives a shallow embedding in Lean 4 of the prime-field utilities,
the Montgomery-ladder scalar multiplications, and the Edwards-curve point
arithmetic of the repository, and proves (or refutes) the stated claims
about them.

Conventions:
* Python arbitrary-precision integers are embedded as `Int` (or `Nat` where
  the Python value is provably non-negative); the Python `%` operator on a
  positive modulus agrees with `Int.emod`.
* Python's three-argument `pow(b, e, m)` (fast modular exponentiation) is
  embedded as the fuel-indexed square-and-multiply function `powMod`, whose
  agreement with `b ^ e % m` is proved in `powMod_spec` / `pyPow_spec`.
* Byte strings are embedded as `List ℕ` (each entry a byte value).
-/

set_option maxRecDepth 10000

/-! ## Fast modular exponentiation (embedding of Python `pow(b, e, m)`) -/

/-- Forcing helper: pattern-match on a natural number so that kernel
evaluation reduces it to a literal before it is passed on.  Semantically
the identity (`forceNat_eq`); it keeps the evaluation stack shallow. -/
def forceNat {α : Type} (n : ℕ) (k : ℕ → α) : α :=
  match n with
  | 0 => k n
  | _ + 1 => k n

theorem forceNat_eq {α : Type} (n : ℕ) (k : ℕ → α) : forceNat n k = k n := by
  cases n <;> rfl

/-- Tail-recursive square-and-multiply accumulator loop. -/
def powModAux : ℕ → ℕ → ℕ → ℕ → ℕ → ℕ
  | 0, _, _, m, acc => acc % m
  | fuel + 1, b, e, m, acc =>
    if e = 0 then acc % m
    else
      forceNat (b * b % m) (fun b2 =>
        forceNat (if e % 2 = 1 then acc * b % m else acc) (fun acc2 =>
          powModAux fuel b2 (e / 2) m acc2))

/-- Modular exponentiation by squaring with a fuel parameter.  The fuel only
needs to exceed the bit length of the exponent. -/
def powMod (fuel b e m : ℕ) : ℕ := powModAux fuel b e m (1 % m)

theorem powModAux_spec (fuel : ℕ) : ∀ b e m acc : ℕ, 0 < m → e < 2 ^ fuel →
    powModAux fuel b e m acc = acc * b ^ e % m := by
  induction fuel with
  | zero =>
    intro b e m acc _ he
    have h0 : e = 0 := by simpa using Nat.lt_one_iff.mp (by simpa using he)
    subst h0
    simp [powModAux]
  | succ fuel ih =>
    intro b e m acc hm he
    by_cases h0 : e = 0
    · subst h0; simp [powModAux]
    · have hrec : e / 2 < 2 ^ fuel := by
        rw [Nat.pow_succ] at he
        omega
      simp only [powModAux, h0, if_false, forceNat_eq]
      rw [ih (b * b % m) (e / 2) m _ hm hrec]
      by_cases hodd : e % 2 = 1
      · simp only [hodd, if_true]
        have h1 : acc * b % m * (b * b % m) ^ (e / 2) % m
            = acc * b * (b * b) ^ (e / 2) % m := by
          rw [Nat.mul_mod, Nat.mod_mod_of_dvd _ dvd_rfl, ← Nat.pow_mod, ← Nat.mul_mod]
        rw [h1]
        have h2 : acc * b * (b * b) ^ (e / 2) = acc * b ^ e := by
          rw [← Nat.pow_two b, ← Nat.pow_mul, Nat.mul_assoc, ← pow_succ']
          rw [show 2 * (e / 2) + 1 = e from by omega]
        rw [h2]
      · simp only [hodd, if_false]
        have h1 : acc * (b * b % m) ^ (e / 2) % m = acc * (b * b) ^ (e / 2) % m := by
          rw [Nat.mul_mod, ← Nat.pow_mod, ← Nat.mul_mod]
        rw [h1]
        have h2 : acc * (b * b) ^ (e / 2) = acc * b ^ e := by
          rw [← Nat.pow_two b, ← Nat.pow_mul]
          rw [show 2 * (e / 2) = e from by omega]
        rw [h2]

theorem powMod_spec (fuel : ℕ) : ∀ b e m : ℕ, 0 < m → e < 2 ^ fuel →
    powMod fuel b e m = b ^ e % m := by
  intro b e m hm he
  unfold powMod
  rw [powModAux_spec fuel b e m (1 % m) hm he]
  rw [Nat.mul_mod, Nat.mod_mod_of_dvd _ dvd_rfl, ← Nat.mul_mod, Nat.one_mul]

/-- Embedding of Python `pow(b, e, m)` for integer base and positive modulus:
the base is first reduced into `[0, m)` and the computation proceeds on
naturals. Agreement with `b ^ e % m` is `pyPow_spec`. -/
def pyPow (b : ℤ) (e : ℕ) (m : ℤ) : ℤ :=
  (powMod e (b % m).toNat e m.toNat : ℕ)

theorem pyPow_spec (b : ℤ) (e : ℕ) (m : ℤ) (hm : 0 < m) :
    pyPow b e m = b ^ e % m := by
  unfold pyPow
  have hmN : 0 < m.toNat := by omega
  rw [powMod_spec e _ e m.toNat hmN (Nat.lt_two_pow e)]
  have hcast : (((b % m).toNat ^ e % m.toNat : ℕ) : ℤ)
      = ((b % m).toNat : ℤ) ^ e % (m.toNat : ℤ) := by
    push_cast
    ring_nf
  rw [hcast]
  have hnn : 0 ≤ b % m := Int.emod_nonneg b (by omega)
  rw [Int.toNat_of_nonneg hnn, Int.toNat_of_nonneg (le_of_lt hm)]
  have hme : (b % m) ≡ b [ZMOD m] := Int.emod_emod_of_dvd b dvd_rfl
  exact hme.pow e

/-- `util.modinv`: modular inverse via Fermat, `pow(x, p - 2, p)`. -/
def modinv (x pm : ℤ) : ℤ := pyPow x (pm - 2).toNat pm

/-! ## The field prime and curve constants -/

/-- The prime `p = 2 ^ 255 - 19` as a natural number. -/
def pN : ℕ := 2 ^ 255 - 19

/-- The prime `p = 2 ^ 255 - 19` as an integer (the `self.p` of the source). -/
def pZ : ℤ := 2 ^ 255 - 19

theorem pZ_eq_cast : pZ = (pN : ℤ) := by
  norm_num [pZ, pN]

theorem pN_pos : 0 < pN := by norm_num [pN]

theorem pZ_pos : 0 < pZ := by norm_num [pZ]

/-! ## Bridges between `Int` arithmetic mod `p` and `ZMod p` -/

theorem emod_eq_emod_iff_cast (a b : ℤ) :
    a % pZ = b % pZ ↔ ((a : ZMod pN) = (b : ZMod pN)) := by
  rw [pZ_eq_cast]
  exact (ZMod.intCast_eq_intCast_iff' a b pN).symm

theorem cast_emod_pZ (a : ℤ) : ((a % pZ : ℤ) : ZMod pN) = (a : ZMod pN) := by
  rw [← emod_eq_emod_iff_cast, Int.emod_emod_of_dvd _ dvd_rfl]

theorem cast_pyPow (b : ℤ) (e : ℕ) :
    ((pyPow b e pZ : ℤ) : ZMod pN) = (b : ZMod pN) ^ e := by
  rw [pyPow_spec b e pZ pZ_pos, cast_emod_pZ]
  push_cast
  rfl

/-! ## Primality of `p = 2 ^ 255 - 19` via Lucas certificates

The chain of Lucas witnesses below verifies the recursive factorization of
`p - 1` and of the predecessors of its large prime factors; every modular
power is checked through `powMod`, which the kernel can evaluate. -/

theorem zmod_pow_eq_one (n a e : ℕ) (hn : 1 < n)
    (h : powMod e a e n % n = 1 % n) : ((a : ℕ) : ZMod n) ^ e = 1 := by
  have h0 : 0 < n := by omega
  have hs : powMod e a e n = a ^ e % n := powMod_spec e a e n h0 (Nat.lt_two_pow e)
  have hmod : a ^ e % n = 1 % n := by
    rw [← Nat.mod_mod_of_dvd (a ^ e) dvd_rfl, ← hs, h]
  have hcast : ((a ^ e : ℕ) : ZMod n) = ((1 : ℕ) : ZMod n) :=
    (ZMod.natCast_eq_natCast_iff' _ _ _).mpr hmod
  push_cast at hcast
  exact hcast

theorem zmod_pow_ne_one (n a e : ℕ) (hn : 1 < n)
    (h : powMod e a e n % n ≠ 1 % n) : ((a : ℕ) : ZMod n) ^ e ≠ 1 := by
  intro hone
  apply h
  have h0 : 0 < n := by omega
  have hs : powMod e a e n = a ^ e % n := powMod_spec e a e n h0 (Nat.lt_two_pow e)
  have hcast : ((a ^ e : ℕ) : ZMod n) = ((1 : ℕ) : ZMod n) := by
    push_cast
    exact hone
  have hmod : a ^ e % n = 1 % n := (ZMod.natCast_eq_natCast_iff' _ _ _).mp hcast
  rw [hs, Nat.mod_mod_of_dvd (a ^ e) dvd_rfl, hmod]

theorem prime_eq_of_dvd_pow {q r e : ℕ} (hq : q.Prime) (hr : r.Prime)
    (h : q ∣ r ^ e) : q = r :=
  (Nat.prime_dvd_prime_iff_eq hq hr).mp (hq.dvd_of_dvd_pow h)

theorem prime_2773320623 : Nat.Prime 2773320623 := by
  have h2437 : Nat.Prime 2437 := by norm_num
  have h569003 : Nat.Prime 569003 := by norm_num
  refine lucas_primality _ ((5 : ℕ) : ZMod 2773320623) ?_ ?_
  · exact zmod_pow_eq_one _ 5 _ (by norm_num) (by decide)
  · intro q hq hd
    rw [show (2773320623 : ℕ) - 1 = 2 * (2437 * 569003) from by norm_num] at hd
    have hq' : q = 2 ∨ q = 2437 ∨ q = 569003 := by
      rcases (Nat.Prime.dvd_mul hq).mp hd with h | h
      · exact Or.inl ((Nat.prime_dvd_prime_iff_eq hq Nat.prime_two).mp h)
      rcases (Nat.Prime.dvd_mul hq).mp h with h | h
      · exact Or.inr (Or.inl ((Nat.prime_dvd_prime_iff_eq hq h2437).mp h))
      · exact Or.inr (Or.inr ((Nat.prime_dvd_prime_iff_eq hq h569003).mp h))
    rcases hq' with rfl | rfl | rfl
    · exact zmod_pow_ne_one _ 5 _ (by norm_num) (by decide)
    · exact zmod_pow_ne_one _ 5 _ (by norm_num) (by decide)
    · exact zmod_pow_ne_one _ 5 _ (by norm_num) (by decide)

theorem prime_72106336199 : Nat.Prime 72106336199 := by
  have h13 : Nat.Prime 13 := by norm_num
  refine lucas_primality _ ((7 : ℕ) : ZMod 72106336199) ?_ ?_
  · exact zmod_pow_eq_one _ 7 _ (by norm_num) (by decide)
  · intro q hq hd
    rw [show (72106336199 : ℕ) - 1 = 2 * (13 * 2773320623) from by norm_num] at hd
    have hq' : q = 2 ∨ q = 13 ∨ q = 2773320623 := by
      rcases (Nat.Prime.dvd_mul hq).mp hd with h | h
      · exact Or.inl ((Nat.prime_dvd_prime_iff_eq hq Nat.prime_two).mp h)
      rcases (Nat.Prime.dvd_mul hq).mp h with h | h
      · exact Or.inr (Or.inl ((Nat.prime_dvd_prime_iff_eq hq h13).mp h))
      · exact Or.inr (Or.inr ((Nat.prime_dvd_prime_iff_eq hq prime_2773320623).mp h))
    rcases hq' with rfl | rfl | rfl
    · exact zmod_pow_ne_one _ 7 _ (by norm_num) (by decide)
    · exact zmod_pow_ne_one _ 7 _ (by norm_num) (by decide)
    · exact zmod_pow_ne_one _ 7 _ (by norm_num) (by decide)

theorem prime_1919519569386763 : Nat.Prime 1919519569386763 := by
  have h7 : Nat.Prime 7 := by norm_num
  have h19 : Nat.Prime 19 := by norm_num
  have h47 : Nat.Prime 47 := by norm_num
  have h127 : Nat.Prime 127 := by norm_num
  have h8574133 : Nat.Prime 8574133 := by norm_num
  refine lucas_primality _ ((2 : ℕ) : ZMod 1919519569386763) ?_ ?_
  · exact zmod_pow_eq_one _ 2 _ (by norm_num) (by decide)
  · intro q hq hd
    rw [show (1919519569386763 : ℕ) - 1
        = 2 * (3 * (7 * (19 * (47 ^ 2 * (127 * 8574133))))) from by norm_num] at hd
    have hq' : q = 2 ∨ q = 3 ∨ q = 7 ∨ q = 19 ∨ q = 47 ∨ q = 127 ∨ q = 8574133 := by
      rcases (Nat.Prime.dvd_mul hq).mp hd with h | h
      · exact Or.inl ((Nat.prime_dvd_prime_iff_eq hq Nat.prime_two).mp h)
      rcases (Nat.Prime.dvd_mul hq).mp h with h | h
      · exact Or.inr (Or.inl ((Nat.prime_dvd_prime_iff_eq hq Nat.prime_three).mp h))
      rcases (Nat.Prime.dvd_mul hq).mp h with h | h
      · exact Or.inr (Or.inr (Or.inl ((Nat.prime_dvd_prime_iff_eq hq h7).mp h)))
      rcases (Nat.Prime.dvd_mul hq).mp h with h | h
      · exact Or.inr (Or.inr (Or.inr (Or.inl ((Nat.prime_dvd_prime_iff_eq hq h19).mp h))))
      rcases (Nat.Prime.dvd_mul hq).mp h with h | h
      · exact Or.inr (Or.inr (Or.inr (Or.inr (Or.inl (prime_eq_of_dvd_pow hq h47 h)))))
      rcases (Nat.Prime.dvd_mul hq).mp h with h | h
      · exact Or.inr (Or.inr (Or.inr (Or.inr (Or.inr
          (Or.inl ((Nat.prime_dvd_prime_iff_eq hq h127).mp h))))))
      · exact Or.inr (Or.inr (Or.inr (Or.inr (Or.inr
          (Or.inr ((Nat.prime_dvd_prime_iff_eq hq h8574133).mp h))))))
    rcases hq' with rfl | rfl | rfl | rfl | rfl | rfl | rfl
    · exact zmod_pow_ne_one _ 2 _ (by norm_num) (by decide)
    · exact zmod_pow_ne_one _ 2 _ (by norm_num) (by decide)
    · exact zmod_pow_ne_one _ 2 _ (by norm_num) (by decide)
    · exact zmod_pow_ne_one _ 2 _ (by norm_num) (by decide)
    · exact zmod_pow_ne_one _ 2 _ (by norm_num) (by decide)
    · exact zmod_pow_ne_one _ 2 _ (by norm_num) (by decide)
    · exact zmod_pow_ne_one _ 2 _ (by norm_num) (by decide)

theorem prime_31757755568855353 : Nat.Prime 31757755568855353 := by
  have h31 : Nat.Prime 31 := by norm_num
  have h107 : Nat.Prime 107 := by norm_num
  have h223 : Nat.Prime 223 := by norm_num
  have h4153 : Nat.Prime 4153 := by norm_num
  have h430751 : Nat.Prime 430751 := by norm_num
  refine lucas_primality _ ((10 : ℕ) : ZMod 31757755568855353) ?_ ?_
  · exact zmod_pow_eq_one _ 10 _ (by norm_num) (by decide)
  · intro q hq hd
    rw [show (31757755568855353 : ℕ) - 1
        = 2 ^ 3 * (3 * (31 * (107 * (223 * (4153 * 430751))))) from by norm_num] at hd
    have hq' : q = 2 ∨ q = 3 ∨ q = 31 ∨ q = 107 ∨ q = 223 ∨ q = 4153 ∨ q = 430751 := by
      rcases (Nat.Prime.dvd_mul hq).mp hd with h | h
      · exact Or.inl (prime_eq_of_dvd_pow hq Nat.prime_two h)
      rcases (Nat.Prime.dvd_mul hq).mp h with h | h
      · exact Or.inr (Or.inl ((Nat.prime_dvd_prime_iff_eq hq Nat.prime_three).mp h))
      rcases (Nat.Prime.dvd_mul hq).mp h with h | h
      · exact Or.inr (Or.inr (Or.inl ((Nat.prime_dvd_prime_iff_eq hq h31).mp h)))
      rcases (Nat.Prime.dvd_mul hq).mp h with h | h
      · exact Or.inr (Or.inr (Or.inr (Or.inl ((Nat.prime_dvd_prime_iff_eq hq h107).mp h))))
      rcases (Nat.Prime.dvd_mul hq).mp h with h | h
      · exact Or.inr (Or.inr (Or.inr (Or.inr
          (Or.inl ((Nat.prime_dvd_prime_iff_eq hq h223).mp h)))))
      rcases (Nat.Prime.dvd_mul hq).mp h with h | h
      · exact Or.inr (Or.inr (Or.inr (Or.inr (Or.inr
          (Or.inl ((Nat.prime_dvd_prime_iff_eq hq h4153).mp h))))))
      · exact Or.inr (Or.inr (Or.inr (Or.inr (Or.inr
          (Or.inr ((Nat.prime_dvd_prime_iff_eq hq h430751).mp h))))))
    rcases hq' with rfl | rfl | rfl | rfl | rfl | rfl | rfl
    · exact zmod_pow_ne_one _ 10 _ (by norm_num) (by decide)
    · exact zmod_pow_ne_one _ 10 _ (by norm_num) (by decide)
    · exact zmod_pow_ne_one _ 10 _ (by norm_num) (by decide)
    · exact zmod_pow_ne_one _ 10 _ (by norm_num) (by decide)
    · exact zmod_pow_ne_one _ 10 _ (by norm_num) (by decide)
    · exact zmod_pow_ne_one _ 10 _ (by norm_num) (by decide)
    · exact zmod_pow_ne_one _ 10 _ (by norm_num) (by decide)

theorem prime_75445702479781427272750846543864801 :
    Nat.Prime 75445702479781427272750846543864801 := by
  have h5 : Nat.Prime 5 := by norm_num
  have h75707 : Nat.Prime 75707 := by norm_num
  refine lucas_primality _ ((7 : ℕ) : ZMod 75445702479781427272750846543864801) ?_ ?_
  · exact zmod_pow_eq_one _ 7 _ (by norm_num) (by decide)
  · intro q hq hd
    rw [show (75445702479781427272750846543864801 : ℕ) - 1
        = 2 ^ 5 * (3 ^ 2 * (5 ^ 2 * (75707 * (72106336199 * 1919519569386763))))
        from by norm_num] at hd
    have hq' : q = 2 ∨ q = 3 ∨ q = 5 ∨ q = 75707 ∨ q = 72106336199
        ∨ q = 1919519569386763 := by
      rcases (Nat.Prime.dvd_mul hq).mp hd with h | h
      · exact Or.inl (prime_eq_of_dvd_pow hq Nat.prime_two h)
      rcases (Nat.Prime.dvd_mul hq).mp h with h | h
      · exact Or.inr (Or.inl (prime_eq_of_dvd_pow hq Nat.prime_three h))
      rcases (Nat.Prime.dvd_mul hq).mp h with h | h
      · exact Or.inr (Or.inr (Or.inl (prime_eq_of_dvd_pow hq h5 h)))
      rcases (Nat.Prime.dvd_mul hq).mp h with h | h
      · exact Or.inr (Or.inr (Or.inr
          (Or.inl ((Nat.prime_dvd_prime_iff_eq hq h75707).mp h))))
      rcases (Nat.Prime.dvd_mul hq).mp h with h | h
      · exact Or.inr (Or.inr (Or.inr (Or.inr
          (Or.inl ((Nat.prime_dvd_prime_iff_eq hq prime_72106336199).mp h)))))
      · exact Or.inr (Or.inr (Or.inr (Or.inr
          (Or.inr ((Nat.prime_dvd_prime_iff_eq hq prime_1919519569386763).mp h)))))
    rcases hq' with rfl | rfl | rfl | rfl | rfl | rfl
    · exact zmod_pow_ne_one _ 7 _ (by norm_num) (by decide)
    · exact zmod_pow_ne_one _ 7 _ (by norm_num) (by decide)
    · exact zmod_pow_ne_one _ 7 _ (by norm_num) (by decide)
    · exact zmod_pow_ne_one _ 7 _ (by norm_num) (by decide)
    · exact zmod_pow_ne_one _ 7 _ (by norm_num) (by decide)
    · exact zmod_pow_ne_one _ 7 _ (by norm_num) (by decide)

theorem prime_Q71 :
    Nat.Prime
      74058212732561358302231226437062788676166966415465897661863160754340907 := by
  have h353 : Nat.Prime 353 := by norm_num
  have h57467 : Nat.Prime 57467 := by norm_num
  have h132049 : Nat.Prime 132049 := by norm_num
  have h1923133 : Nat.Prime 1923133 := by norm_num
  refine lucas_primality _
    ((2 : ℕ) : ZMod
      74058212732561358302231226437062788676166966415465897661863160754340907) ?_ ?_
  · exact zmod_pow_eq_one _ 2 _ (by norm_num) (by decide)
  · intro q hq hd
    rw [show (74058212732561358302231226437062788676166966415465897661863160754340907 : ℕ)
        - 1
        = 2 * (3 * (353 * (57467 * (132049 * (1923133 * (31757755568855353
            * 75445702479781427272750846543864801)))))) from by norm_num] at hd
    have hq' : q = 2 ∨ q = 3 ∨ q = 353 ∨ q = 57467 ∨ q = 132049 ∨ q = 1923133
        ∨ q = 31757755568855353 ∨ q = 75445702479781427272750846543864801 := by
      rcases (Nat.Prime.dvd_mul hq).mp hd with h | h
      · exact Or.inl ((Nat.prime_dvd_prime_iff_eq hq Nat.prime_two).mp h)
      rcases (Nat.Prime.dvd_mul hq).mp h with h | h
      · exact Or.inr (Or.inl ((Nat.prime_dvd_prime_iff_eq hq Nat.prime_three).mp h))
      rcases (Nat.Prime.dvd_mul hq).mp h with h | h
      · exact Or.inr (Or.inr (Or.inl ((Nat.prime_dvd_prime_iff_eq hq h353).mp h)))
      rcases (Nat.Prime.dvd_mul hq).mp h with h | h
      · exact Or.inr (Or.inr (Or.inr (Or.inl ((Nat.prime_dvd_prime_iff_eq hq h57467).mp h))))
      rcases (Nat.Prime.dvd_mul hq).mp h with h | h
      · exact Or.inr (Or.inr (Or.inr (Or.inr
          (Or.inl ((Nat.prime_dvd_prime_iff_eq hq h132049).mp h)))))
      rcases (Nat.Prime.dvd_mul hq).mp h with h | h
      · exact Or.inr (Or.inr (Or.inr (Or.inr (Or.inr
          (Or.inl ((Nat.prime_dvd_prime_iff_eq hq h1923133).mp h))))))
      rcases (Nat.Prime.dvd_mul hq).mp h with h | h
      · exact Or.inr (Or.inr (Or.inr (Or.inr (Or.inr (Or.inr
          (Or.inl ((Nat.prime_dvd_prime_iff_eq hq prime_31757755568855353).mp h)))))))
      · exact Or.inr (Or.inr (Or.inr (Or.inr (Or.inr (Or.inr (Or.inr
          ((Nat.prime_dvd_prime_iff_eq hq
            prime_75445702479781427272750846543864801).mp h)))))))
    rcases hq' with rfl | rfl | rfl | rfl | rfl | rfl | rfl | rfl
    · exact zmod_pow_ne_one _ 2 _ (by norm_num) (by decide)
    · exact zmod_pow_ne_one _ 2 _ (by norm_num) (by decide)
    · exact zmod_pow_ne_one _ 2 _ (by norm_num) (by decide)
    · exact zmod_pow_ne_one _ 2 _ (by norm_num) (by decide)
    · exact zmod_pow_ne_one _ 2 _ (by norm_num) (by decide)
    · exact zmod_pow_ne_one _ 2 _ (by norm_num) (by decide)
    · exact zmod_pow_ne_one _ 2 _ (by norm_num) (by decide)
    · exact zmod_pow_ne_one _ 2 _ (by norm_num) (by decide)

theorem prime_pN : Nat.Prime pN := by
  have h65147 : Nat.Prime 65147 := by norm_num
  rw [show pN = 57896044618658097711785492504343953926634992332820282019728792003956564819949
      from by norm_num [pN]]
  refine lucas_primality _
    ((2 : ℕ) : ZMod
      57896044618658097711785492504343953926634992332820282019728792003956564819949) ?_ ?_
  · exact zmod_pow_eq_one _ 2 _ (by norm_num) (by decide)
  · intro q hq hd
    rw [show (57896044618658097711785492504343953926634992332820282019728792003956564819949 : ℕ)
        - 1
        = 2 ^ 2 * (3 * (65147
            * 74058212732561358302231226437062788676166966415465897661863160754340907))
        from by norm_num] at hd
    have hq' : q = 2 ∨ q = 3 ∨ q = 65147
        ∨ q = 74058212732561358302231226437062788676166966415465897661863160754340907 := by
      rcases (Nat.Prime.dvd_mul hq).mp hd with h | h
      · exact Or.inl (prime_eq_of_dvd_pow hq Nat.prime_two h)
      rcases (Nat.Prime.dvd_mul hq).mp h with h | h
      · exact Or.inr (Or.inl ((Nat.prime_dvd_prime_iff_eq hq Nat.prime_three).mp h))
      rcases (Nat.Prime.dvd_mul hq).mp h with h | h
      · exact Or.inr (Or.inr (Or.inl ((Nat.prime_dvd_prime_iff_eq hq h65147).mp h)))
      · exact Or.inr (Or.inr (Or.inr ((Nat.prime_dvd_prime_iff_eq hq prime_Q71).mp h)))
    rcases hq' with rfl | rfl | rfl | rfl
    · exact zmod_pow_ne_one _ 2 _ (by norm_num) (by decide)
    · exact zmod_pow_ne_one _ 2 _ (by norm_num) (by decide)
    · exact zmod_pow_ne_one _ 2 _ (by norm_num) (by decide)
    · exact zmod_pow_ne_one _ 2 _ (by norm_num) (by decide)

instance fact_prime_pN : Fact (Nat.Prime pN) := ⟨prime_pN⟩

/-! ## Byte strings

Python byte strings are embedded as `List ℕ`, little-endian first.
`fromBytesLE` is `int.from_bytes(-, "little")` and `toBytesLE 32`
is `int.to_bytes(32, "little")`. -/

def fromBytesLE : List ℕ → ℕ
  | [] => 0
  | b :: rest => b + 256 * fromBytesLE rest

def toBytesLE : ℕ → ℕ → List ℕ
  | 0, _ => []
  | l + 1, n => n % 256 :: toBytesLE l (n / 256)

theorem toBytesLE_length (l : ℕ) : ∀ n, (toBytesLE l n).length = l := by
  induction l with
  | zero => intro n; rfl
  | succ l ih => intro n; simp [toBytesLE, ih]

theorem fromBytesLE_toBytesLE (l : ℕ) : ∀ n, fromBytesLE (toBytesLE l n) = n % 256 ^ l := by
  induction l with
  | zero => intro n; simp [toBytesLE, fromBytesLE, Nat.mod_one]
  | succ l ih =>
    intro n
    simp only [toBytesLE, fromBytesLE, ih]
    rw [pow_succ', Nat.mod_mul]

theorem fromBytesLE_lt (bs : List ℕ) (h : ∀ b ∈ bs, b < 256) :
    fromBytesLE bs < 256 ^ bs.length := by
  induction bs with
  | nil => simp [fromBytesLE]
  | cons b rest ih =>
    have hb : b < 256 := h b (by simp)
    have hr := ih (fun x hx => h x (by simp [hx]))
    simp only [fromBytesLE, List.length_cons]
    rw [Nat.pow_succ]
    omega

theorem fromBytesLE_append (xs ys : List ℕ) :
    fromBytesLE (xs ++ ys) = fromBytesLE xs + 256 ^ xs.length * fromBytesLE ys := by
  induction xs with
  | nil => simp [fromBytesLE]
  | cons b rest ih =>
    simp only [List.cons_append, fromBytesLE, List.append_eq, ih, List.length_cons]
    rw [Nat.pow_succ]
    ring

theorem set_last_append (ys : List ℕ) (y b : ℕ) :
    (ys ++ [y]).set ys.length b = ys ++ [b] := by
  induction ys with
  | nil => rfl
  | cons a rest ih => simp [List.set, ih]

theorem getD_last_append (ys : List ℕ) (y : ℕ) :
    (ys ++ [y]).getD ys.length 0 = y := by
  induction ys with
  | nil => rfl
  | cons a rest ih =>
    simp only [List.cons_append, List.length_cons, List.getD_cons_succ]
    exact ih

/-! ## `util.clamp_scalar` and claim C4 -/

/-- `util.clamp_scalar`: clear the low 3 bits and the top bit, set bit 254,
then read the buffer as a little-endian integer. -/
def clamp_scalar (k : List ℕ) : ℕ :=
  let k1 := k.set 0 (k.getD 0 0 &&& 248)
  let k2 := k1.set 31 (k1.getD 31 0 &&& 127)
  let k3 := k2.set 31 (k2.getD 31 0 ||| 64)
  fromBytesLE k3

/-- C4. For every 32-byte input, the clamped scalar is a multiple of 8,
lies in `[2 ^ 254, 2 ^ 255)`, and has bit 254 set. -/
theorem C4_clamp_scalar_props (k : List ℕ) (hlen : k.length = 32)
    (hbytes : ∀ b ∈ k, b < 256) :
    clamp_scalar k % 8 = 0 ∧ 2 ^ 254 ≤ clamp_scalar k ∧ clamp_scalar k < 2 ^ 255 ∧
      Nat.testBit (clamp_scalar k) 254 = true := by
  match k, hlen with
  | b0 :: rest, hlen =>
    have hrl : rest.length = 31 := by simpa using hlen
    have hrest_ne : rest ≠ [] := by intro h; rw [h] at hrl; simp at hrl
    obtain ⟨ys, y, hys⟩ : ∃ ys y, rest = ys ++ [y] := by
      refine ⟨rest.dropLast, rest.getLast hrest_ne, ?_⟩
      exact (List.dropLast_append_getLast hrest_ne).symm
    have hysl : ys.length = 30 := by
      have := congrArg List.length hys
      simp at this
      omega
    subst hys
    have hb0 : b0 < 256 := hbytes b0 (by simp)
    have hy : y < 256 := hbytes y (by simp)
    have hysb : ∀ b ∈ ys, b < 256 := fun b hb => hbytes b (by simp [hb])
    -- unfold the three byte operations
    have hset0 : (b0 :: (ys ++ [y])).set 0 (((b0 :: (ys ++ [y])).getD 0 0) &&& 248)
        = (b0 &&& 248) :: (ys ++ [y]) := rfl
    have key : clamp_scalar (b0 :: (ys ++ [y]))
        = fromBytesLE ((b0 &&& 248) :: (ys ++ [((y &&& 127) ||| 64)])) := by
      unfold clamp_scalar
      simp only [hset0]
      have h31a : ((b0 &&& 248) :: (ys ++ [y])).getD 31 0 = y := by
        show ((ys ++ [y]).getD 30 0) = y
        rw [← hysl]
        exact getD_last_append ys y
      rw [h31a]
      have h31b : ((b0 &&& 248) :: (ys ++ [y])).set 31 (y &&& 127)
          = (b0 &&& 248) :: (ys ++ [y &&& 127]) := by
        show (b0 &&& 248) :: ((ys ++ [y]).set 30 (y &&& 127)) = _
        rw [← hysl, set_last_append]
      rw [h31b]
      have h31c : ((b0 &&& 248) :: (ys ++ [y &&& 127])).getD 31 0 = y &&& 127 := by
        show ((ys ++ [y &&& 127]).getD 30 0) = y &&& 127
        rw [← hysl]
        exact getD_last_append ys (y &&& 127)
      rw [h31c]
      have h31d : ((b0 &&& 248) :: (ys ++ [y &&& 127])).set 31 ((y &&& 127) ||| 64)
          = (b0 &&& 248) :: (ys ++ [(y &&& 127) ||| 64]) := by
        show (b0 &&& 248) :: ((ys ++ [y &&& 127]).set 30 ((y &&& 127) ||| 64)) = _
        rw [← hysl, set_last_append]
      rw [h31d]
    set c0 := b0 &&& 248 with hc0def
    set c31 := (y &&& 127) ||| 64 with hc31def
    have hval : clamp_scalar (b0 :: (ys ++ [y]))
        = c0 + 256 * (fromBytesLE ys + 256 ^ 30 * c31) := by
      rw [key]
      simp only [fromBytesLE, fromBytesLE_append, hysl]
      simp [fromBytesLE]
    have hc0 : c0 % 8 = 0 ∧ c0 < 256 := by
      have hgen : ∀ b < 256, (b &&& 248) % 8 = 0 ∧ (b &&& 248) < 256 := by decide
      exact hgen b0 hb0
    have hc31 : 64 ≤ c31 ∧ c31 < 128 := by
      have hgen : ∀ b < 256, 64 ≤ ((b &&& 127) ||| 64) ∧ ((b &&& 127) ||| 64) < 128 := by
        decide
      exact hgen y hy
    have hL : fromBytesLE ys < 256 ^ 30 := by
      have := fromBytesLE_lt ys hysb
      rwa [hysl] at this
    rw [hval]
    have h256 : (256 : ℕ) ^ 30 = 2 ^ 240 := by norm_num
    rw [h256] at hL
    rw [h256]
    refine ⟨by omega, by omega, by omega, ?_⟩
    rw [Nat.testBit_to_div_mod]
    simp only [decide_eq_true_eq]
    omega

/-- Witness for C4 at the all-zero 32-byte input. -/
theorem C4_clamp_scalar_props_witness :
    clamp_scalar (List.replicate 32 0) % 8 = 0 ∧
      2 ^ 254 ≤ clamp_scalar (List.replicate 32 0) ∧
      clamp_scalar (List.replicate 32 0) < 2 ^ 255 ∧
      Nat.testBit (clamp_scalar (List.replicate 32 0)) 254 = true :=
  C4_clamp_scalar_props (List.replicate 32 0) (by decide)
    (by intro b hb; simp at hb; omega)

/-! ## Field helpers over `ZMod p` -/

theorem toNat_pZ_sub_two : (pZ - 2).toNat = pN - 2 := by
  decide

theorem modinv_cast (x : ℤ) :
    ((modinv x pZ : ℤ) : ZMod pN) = (x : ZMod pN) ^ (pN - 2) := by
  unfold modinv
  rw [cast_pyPow, toNat_pZ_sub_two]

theorem cast_ne_zero_of_range {x : ℤ} (h1 : 0 < x) (h2 : x < pZ) :
    (x : ZMod pN) ≠ 0 := by
  intro h0
  have hdvd : ((pN : ℕ) : ℤ) ∣ x := (ZMod.intCast_zmod_eq_zero_iff_dvd x pN).mp h0
  rw [← pZ_eq_cast] at hdvd
  have := Int.le_of_dvd h1 hdvd
  omega

theorem mul_pow_card_sub_two {x : ZMod pN} (hx : x ≠ 0) :
    x * x ^ (pN - 2) = 1 := by
  have h := ZMod.pow_card_sub_one_eq_one hx
  have h2 : (2 : ℕ) ≤ pN := by norm_num [pN]
  have hexp : pN - 2 + 1 = pN - 1 := by omega
  have hstep : x * x ^ (pN - 2) = x ^ (pN - 1) := by
    rw [← pow_succ', hexp]
  rw [hstep, h]

theorem pow_card_sub_two_eq_inv {x : ZMod pN} (hx : x ≠ 0) :
    x ^ (pN - 2) = x⁻¹ :=
  eq_inv_of_mul_eq_one_left (by rw [mul_comm]; exact mul_pow_card_sub_two hx)

theorem modinv_cast_inv {x : ℤ} (hx : (x : ZMod pN) ≠ 0) :
    ((modinv x pZ : ℤ) : ZMod pN) = (x : ZMod pN)⁻¹ := by
  rw [modinv_cast, pow_card_sub_two_eq_inv hx]

theorem int_eq_of_cast_eq {a b : ℤ} (ha : 0 ≤ a) (ha' : a < pZ) (hb : 0 ≤ b)
    (hb' : b < pZ) (h : (a : ZMod pN) = (b : ZMod pN)) : a = b := by
  rw [← emod_eq_emod_iff_cast] at h
  rwa [Int.emod_eq_of_lt ha ha', Int.emod_eq_of_lt hb hb'] at h

theorem emod_lt_pZ (a : ℤ) : a % pZ < pZ := Int.emod_lt_of_pos a pZ_pos

theorem emod_nonneg_pZ (a : ℤ) : 0 ≤ a % pZ := Int.emod_nonneg a (by norm_num [pZ])

/-! ## `util.modinv` and claim C7 -/

/-- C7. For every field element `x` in `[1, p)`, `x * modinv x p ≡ 1 (mod p)`,
and `modinv 0 p = 0`. -/
theorem C7_modinv_correct :
    (∀ x : ℤ, 1 ≤ x → x < pZ → (x * modinv x pZ) % pZ = 1) ∧
      modinv 0 pZ = 0 := by
  constructor
  · intro x h1 h2
    have hx : (x : ZMod pN) ≠ 0 := cast_ne_zero_of_range (by omega) h2
    have hcast : (((x * modinv x pZ) % pZ : ℤ) : ZMod pN) = ((1 : ℤ) : ZMod pN) := by
      rw [cast_emod_pZ]
      push_cast
      rw [modinv_cast, mul_pow_card_sub_two hx]
    have h1lt : (1 : ℤ) < pZ := by norm_num [pZ]
    exact int_eq_of_cast_eq (emod_nonneg_pZ _) (emod_lt_pZ _) (by norm_num)
      h1lt hcast
  · decide

/-- Witness for C7 at `x = 2`. -/
theorem C7_modinv_correct_witness : (2 * modinv 2 pZ) % pZ = 1 :=
  C7_modinv_correct.1 2 (by norm_num) (by norm_num [pZ])

/-! ## `util.sqrt_mod` and claim C5 -/

/-- `util.sqrt_mod`: square root mod `p` for `p ≡ 5 (mod 8)`;
`none` models the raised `ValueError` (no square root). -/
def sqrt_mod (a pm : ℤ) : Option ℤ :=
  let r := pyPow a ((pm + 3) / 8).toNat pm
  if r * r % pm = a % pm then some r
  else if r * r % pm = (-a) % pm then
    some (r * pyPow 2 (((pm - 1) / 4).toNat) pm % pm)
  else none

theorem sqrt_mod_pZ_eq (a : ℤ) :
    sqrt_mod a pZ =
      (if (a ^ ((pZ + 3) / 8).toNat % pZ) * (a ^ ((pZ + 3) / 8).toNat % pZ) % pZ
          = a % pZ
       then some (a ^ ((pZ + 3) / 8).toNat % pZ)
       else if (a ^ ((pZ + 3) / 8).toNat % pZ) * (a ^ ((pZ + 3) / 8).toNat % pZ) % pZ
          = (-a) % pZ
       then some ((a ^ ((pZ + 3) / 8).toNat % pZ)
          * ((2 : ℤ) ^ ((pZ - 1) / 4).toNat % pZ) % pZ)
       else none) := by
  simp only [sqrt_mod]
  rw [pyPow_spec a _ pZ pZ_pos, pyPow_spec 2 _ pZ pZ_pos]

/-- The square root of `-1` used by `sqrt_mod`: `(2 ^ ((p - 1) / 4)) ^ 2 ≡ -1`. -/
theorem sqrt_m1_sq :
    ((2 : ℤ) ^ ((pZ - 1) / 4).toNat % pZ) * ((2 : ℤ) ^ ((pZ - 1) / 4).toNat % pZ) % pZ
      = pZ - 1 := by
  rw [← pyPow_spec 2 _ pZ pZ_pos]
  decide

/-- C5. `sqrt_mod a p` computes `r = a ^ ((p + 3) / 8) mod p`; if `r² ≡ a` it
returns `r`; else if `r² ≡ -a` it returns `r · √-1` with `√-1 = 2 ^ ((p-1)/4)`;
otherwise it fails.  Every returned value `r'` satisfies `r'² ≡ a (mod p)`. -/
theorem C5_sqrt_mod (a : ℤ) :
    ((a ^ ((pZ + 3) / 8).toNat % pZ) * (a ^ ((pZ + 3) / 8).toNat % pZ) % pZ = a % pZ →
      sqrt_mod a pZ = some (a ^ ((pZ + 3) / 8).toNat % pZ)) ∧
    ((a ^ ((pZ + 3) / 8).toNat % pZ) * (a ^ ((pZ + 3) / 8).toNat % pZ) % pZ ≠ a % pZ →
      (a ^ ((pZ + 3) / 8).toNat % pZ) * (a ^ ((pZ + 3) / 8).toNat % pZ) % pZ = (-a) % pZ →
      sqrt_mod a pZ
        = some ((a ^ ((pZ + 3) / 8).toNat % pZ) * ((2:ℤ) ^ ((pZ - 1) / 4).toNat % pZ) % pZ)) ∧
    ((a ^ ((pZ + 3) / 8).toNat % pZ) * (a ^ ((pZ + 3) / 8).toNat % pZ) % pZ ≠ a % pZ →
      (a ^ ((pZ + 3) / 8).toNat % pZ) * (a ^ ((pZ + 3) / 8).toNat % pZ) % pZ ≠ (-a) % pZ →
      sqrt_mod a pZ = none) ∧
    (∀ r', sqrt_mod a pZ = some r' → r' * r' % pZ = a % pZ) := by
  rw [sqrt_mod_pZ_eq]
  set r := a ^ ((pZ + 3) / 8).toNat % pZ with hrdef
  refine ⟨fun h => by rw [if_pos h], fun h1 h2 => by rw [if_neg h1, if_pos h2],
    fun h1 h2 => by rw [if_neg h1, if_neg h2], ?_⟩
  intro r' hr'
  by_cases h1 : r * r % pZ = a % pZ
  · rw [if_pos h1, Option.some_inj] at hr'
    rw [← hr']
    exact h1
  · rw [if_neg h1] at hr'
    by_cases h2 : r * r % pZ = (-a) % pZ
    · rw [if_pos h2, Option.some_inj] at hr'
      set s := (2 : ℤ) ^ ((pZ - 1) / 4).toNat % pZ with hsdef
      -- r'² = r² s² ≡ (-a) · (-1) = a  (mod p)
      have hs2 : s * s % pZ = pZ - 1 := sqrt_m1_sq
      rw [← hr']
      rw [emod_eq_emod_iff_cast]
      have hcr2 : ((r * r : ℤ) : ZMod pN) = ((-a : ℤ) : ZMod pN) :=
        (emod_eq_emod_iff_cast _ _).mp h2
      have hcs2 : ((s * s : ℤ) : ZMod pN) = -1 := by
        have hstep : ((s * s % pZ : ℤ) : ZMod pN) = ((pZ - 1 : ℤ) : ZMod pN) := by rw [hs2]
        rw [cast_emod_pZ] at hstep
        rw [hstep, pZ_eq_cast]
        push_cast
        simp [ZMod.natCast_self]
      have hmulcast : (((r * s % pZ) * (r * s % pZ) : ℤ) : ZMod pN)
          = ((r * s : ℤ) : ZMod pN) * ((r * s : ℤ) : ZMod pN) := by
        rw [Int.cast_mul, cast_emod_pZ]
      rw [hmulcast]
      have hsplit : ((r * s : ℤ) : ZMod pN) * ((r * s : ℤ) : ZMod pN)
          = ((r * r : ℤ) : ZMod pN) * ((s * s : ℤ) : ZMod pN) := by
        push_cast
        ring
      rw [hsplit, hcr2, hcs2]
      push_cast
      ring
    · rw [if_neg h2] at hr'
      exact absurd hr' (by simp)

/-- Witness for C5 at `a = 1` (first branch taken). -/
theorem C5_sqrt_mod_witness :
    sqrt_mod 1 pZ = some ((1 : ℤ) ^ ((pZ + 3) / 8).toNat % pZ) :=
  (C5_sqrt_mod 1).1 (by norm_num [pZ])

/-! ## Edwards curve data model

Points are embedded as `Option` pairs / quadruples, `none` being the
distinguished identity (`IdentityPoint` / `None` in the source). -/

/-- Affine Edwards point: `None` (identity) or `AffinePoint(x, y)`. -/
abbrev AffPt : Type := Option (ℤ × ℤ)

/-- Extended Edwards point: `None` (identity) or `ExtendedPoint(X, Y, Z, T)`. -/
abbrev ExtPt : Type := Option (ℤ × ℤ × ℤ × ℤ)

/-- `EdwardsCurve.d`: the twisted Edwards constant
`(-121665 * modinv(121666, p)) % p`. -/
def dconst : ℤ := (-121665 * modinv 121666 pZ) % pZ

/-- `EdwardsCurve.q`: the subgroup order. -/
def qN : ℕ := 2 ^ 252 + 27742317777372353535851937790883648493

/-- Modelled from the spec: the curve constant `a = -1` of the twisted
Edwards curve (`self.a` is referenced by the `double` formulas of the
Edwards classes but its assignment is not part of the sources; the spec
fixes `a = -1` for Ed25519). -/
def aconst : ℤ := -1

/-- `EdwardsCurve.B`: the base point in affine coordinates (RFC 8032). -/
def B_affine : ℤ × ℤ :=
  (15112221349535400772501151409588531511454012693041857206046113283949847762202,
   46316835694926478169428394003475163141307993866256225615783033603165251855960)

namespace AffineEdwardsCurve

/-- `AffineEdwardsCurve.add`. -/
def add (P Q : AffPt) : AffPt :=
  match P, Q with
  | none, q => q
  | p, none => p
  | some (x1, y1), some (x2, y2) =>
    let denom := dconst * x1 * x2 * y1 * y2
    let inv_denom_x := modinv ((1 + denom) % pZ) pZ
    let inv_denom_y := modinv ((1 - denom) % pZ) pZ
    some (((x1 * y2 + x2 * y1) * inv_denom_x) % pZ,
          ((x1 * x2 + y1 * y2) * inv_denom_y) % pZ)

/-- `AffineEdwardsCurve.double`. -/
def double (R : AffPt) : AffPt :=
  match R with
  | none => none
  | some (x1, y1) =>
    let denom := dconst * x1 * x1 * y1 * y1
    let inv_denom_x := modinv ((1 + denom) % pZ) pZ
    let inv_denom_y := modinv ((1 - denom) % pZ) pZ
    some (((x1 * y1 + y1 * x1) * inv_denom_x) % pZ,
          ((y1 * y1 - aconst * x1 * x1) * inv_denom_y) % pZ)

/-- `AffineEdwardsCurve.compress`; the error models the raised `ValueError`. -/
def compress (P : AffPt) : Except String (List ℕ) :=
  match P with
  | none => .error "Cannot compress Identity Element"
  | some (x, y) =>
    let y_arr := toBytesLE 32 y.toNat
    if x % 2 = 1 then .ok (y_arr.set 31 (y_arr.getD 31 0 ||| 128))
    else .ok (y_arr.set 31 (y_arr.getD 31 0 &&& 127))

/-- `AffineEdwardsCurve.uncompress`; errors model the raised `ValueError`s
(including the one raised inside `sqrt_mod`). -/
def uncompress (comp : List ℕ) : Except String (ℤ × ℤ) :=
  if comp.length ≠ 32 then .error "Compressed point must be 32 bytes"
  else
    let sign : ℕ := (comp.getD 31 0 >>> 7) &&& 1
    let comp' := comp.set 31 (comp.getD 31 0 &&& 127)
    let dx : ℤ := (fromBytesLE comp' : ℕ)
    if pZ ≤ dx then .error "Decoded y is not in field range"
    else
      let dx_squared := dx * dx % pZ
      let u := (dx_squared - 1) % pZ
      let v := (dconst * dx_squared + 1) % pZ
      let x_sq := u * modinv v pZ % pZ
      match sqrt_mod x_sq pZ with
      | none => .error "No square root exists for the given input."
      | some x =>
        if x % 2 ≠ (sign : ℤ) then .ok ((-x) % pZ, dx)
        else .ok (x, dx)

/-- `AffineEdwardsCurve.point_equals`: permissive equality, identity compares
equal to everything. -/
def point_equals (P Q : AffPt) : Bool :=
  match P, Q with
  | none, _ => true
  | _, none => true
  | some (x1, y1), some (x2, y2) => decide (x1 = x2) && decide (y1 = y2)

end AffineEdwardsCurve

namespace ExtendedEdwardsCurve

/-- `ExtendedEdwardsCurve.add` (extended homogeneous coordinates, 8M + 1D).
Note the source returns the identity whenever either operand is the
identity. -/
def add (P Q : ExtPt) : ExtPt :=
  match P, Q with
  | none, _ => none
  | _, none => none
  | some (X1, Y1, Z1, T1), some (X2, Y2, Z2, T2) =>
    let A := (Y1 - X1) * (Y2 - X2) % pZ
    let B := (Y1 + X1) * (Y2 + X2) % pZ
    let C := 2 * dconst * T1 * T2 % pZ
    let D := 2 * Z1 * Z2 % pZ
    let E := B - A
    let F := D - C
    let G := D + C
    let H := B + A
    some (E * F % pZ, G * H % pZ, F * G % pZ, E * H % pZ)

/-- `ExtendedEdwardsCurve.double` (formula 7, 4M + 4S + 1D); the unreduced
intermediate expressions mirror the Python operator precedence. -/
def double (P : ExtPt) : ExtPt :=
  match P with
  | none => none
  | some (X1, Y1, Z1, _) =>
    let A := X1 ^ 2 % pZ
    let B := Y1 ^ 2 % pZ
    let C := 2 * Z1 ^ 2 % pZ
    let D := aconst * A % pZ
    let E := (X1 + Y1) ^ 2 - A - B % pZ
    let G := D + B % pZ
    let F := G - C % pZ
    let H := D - B % pZ
    some (E * F % pZ, G * H % pZ, F * G % pZ, E * H % pZ)

/-- Modelled from the spec: `util.projective_to_affine(X, Z, p) = X · Z⁻¹ mod p`
(the three-argument helper imported from `util` is not among the sources; the
spec and the two-argument draft in `montgomery2.py` fix it as the affine
conversion via the Fermat inverse). -/
def projective_to_affine (X Z pm : ℤ) : ℤ := (X * modinv Z pm) % pm

/-- `ExtendedEdwardsCurve._from_affine`. -/
def from_affine (P : AffPt) : ExtPt :=
  match P with
  | none => none
  | some (x, y) => some (x, y, 1, x * y % pZ)

/-- `ExtendedEdwardsCurve._to_affine`. -/
def to_affine (P : ExtPt) : AffPt :=
  match P with
  | none => none
  | some (X, Y, Z, _) =>
    some (projective_to_affine X Z pZ, projective_to_affine Y Z pZ)

/-- `ExtendedEdwardsCurve.point_equals`: compare affine projections with the
permissive affine equality. -/
def point_equals (P Q : ExtPt) : Bool :=
  AffineEdwardsCurve.point_equals (to_affine P) (to_affine Q)

/-- `ExtendedEdwardsCurve.compress`. -/
def compress (P : ExtPt) : Except String (List ℕ) :=
  AffineEdwardsCurve.compress (to_affine P)

/-- `ExtendedEdwardsCurve.uncompress`. -/
def uncompress (comp : List ℕ) : Except String ExtPt :=
  (AffineEdwardsCurve.uncompress comp).map (fun xy => from_affine (some xy))

end ExtendedEdwardsCurve

/-! ## Claim C8: `point_equals` -/

/-- C8. Identity compares equal to everything under `point_equals` (both the
affine and the extended versions), and two non-identity extended points are
`point_equals`-equal iff their affine projections agree componentwise. -/
theorem C8_point_equals :
    (∀ P Q : AffPt, P = none ∨ Q = none →
      AffineEdwardsCurve.point_equals P Q = true) ∧
    (∀ P Q : ExtPt, P = none ∨ Q = none →
      ExtendedEdwardsCurve.point_equals P Q = true) ∧
    (∀ p1 p2 : ℤ × ℤ × ℤ × ℤ,
      ExtendedEdwardsCurve.point_equals (some p1) (some p2) = true ↔
        ExtendedEdwardsCurve.to_affine (some p1)
          = ExtendedEdwardsCurve.to_affine (some p2)) := by
  refine ⟨?_, ?_, ?_⟩
  · rintro P Q (rfl | rfl)
    · cases Q with
      | none => rfl
      | some q => obtain ⟨x, y⟩ := q; rfl
    · cases P with
      | none => rfl
      | some p => obtain ⟨x, y⟩ := p; rfl
  · rintro P Q (rfl | rfl)
    · cases Q with
      | none => rfl
      | some q => obtain ⟨X, Y, Z, T⟩ := q; rfl
    · cases P with
      | none => rfl
      | some p => obtain ⟨X, Y, Z, T⟩ := p; rfl
  · intro p1 p2
    obtain ⟨X1, Y1, Z1, T1⟩ := p1
    obtain ⟨X2, Y2, Z2, T2⟩ := p2
    simp only [ExtendedEdwardsCurve.point_equals, ExtendedEdwardsCurve.to_affine,
      AffineEdwardsCurve.point_equals, Bool.and_eq_true, decide_eq_true_eq]
    constructor
    · rintro ⟨h1, h2⟩
      rw [h1, h2]
    · intro h
      have h' := Option.some_inj.mp h
      exact ⟨congrArg Prod.fst h', congrArg Prod.snd h'⟩

/-- Witness for C8: identity against a concrete extended point. -/
theorem C8_point_equals_witness :
    ExtendedEdwardsCurve.point_equals none (some (1, 2, 3, 4)) = true :=
  C8_point_equals.2.1 none (some (1, 2, 3, 4)) (Or.inl rfl)

instance instDecEqExcept {ε α : Type _} [DecidableEq ε] [DecidableEq α] :
    DecidableEq (Except ε α) := fun x y =>
  match x, y with
  | .ok a, .ok b =>
    if h : a = b then .isTrue (by rw [h]) else .isFalse (fun hc => h (by injection hc))
  | .error a, .error b =>
    if h : a = b then .isTrue (by rw [h]) else .isFalse (fun hc => h (by injection hc))
  | .ok _, .error _ => .isFalse (fun hc => Except.noConfusion hc)
  | .error _, .ok _ => .isFalse (fun hc => Except.noConfusion hc)

/-! ## Claim C9: a decodable compressed point that does not re-encode to itself -/

/-- The 32-byte string encoding `y = 1` with the sign bit (bit 255) set. -/
def compC9 : List ℕ := 1 :: (List.replicate 30 0 ++ [128])

/-- C9. `uncompress` accepts `compC9` and returns the point `(0, 1)`, whose
recompression `compress (0, 1)` is the encoding of `y = 1` with a clear sign
bit — a different byte string.  So compress ∘ uncompress is not the identity
on accepted inputs. -/
theorem C9_uncompress_not_section :
    AffineEdwardsCurve.uncompress compC9 = .ok (0, 1) ∧
    AffineEdwardsCurve.compress (some (0, 1)) = .ok (1 :: List.replicate 31 0) ∧
    (1 :: List.replicate 31 0) ≠ compC9 := by
  refine ⟨by decide, by decide, by decide⟩

/-! ## Double-and-add scalar multiplication (claims C10, C2)

Both `DoubleAndAddCurve.scalar_mult` (curve.py) and
`EdwardsCurve.scalar_mult` (edwards_curve.py) run the loop
`while scalar: if odd then accumulate; double; halve`.  The loop is
embedded with a fuel parameter; `none` signals fuel exhaustion, and the
termination claim C10 shows fuel equal to the bit length always suffices. -/

def damLoop {α : Type} (add : Option α → Option α → Option α)
    (double : Option α → Option α) :
    ℕ → Option α → Option α → ℕ → Option (Option α)
  | fuel, Q, R, s =>
    if s = 0 then some Q
    else
      match fuel with
      | 0 => none
      | fuel + 1 =>
        damLoop add double fuel
          (if s % 2 = 1 then (match Q with | none => R | some q => add (some q) R) else Q)
          (double R) (s / 2)

namespace DoubleAndAddCurve

/-- `DoubleAndAddCurve.scalar_mult` (curve.py): early return on the identity,
then the double-and-add loop starting from `Q = None`. -/
def scalar_mult {α : Type} (add : Option α → Option α → Option α)
    (double : Option α → Option α) (fuel : ℕ) (R : Option α) (scalar : ℕ) :
    Option (Option α) :=
  match R with
  | none => some none
  | some r => damLoop add double fuel none (some r) scalar

end DoubleAndAddCurve

namespace EdwardsCurve

/-- `EdwardsCurve.add` (edwards_curve.py, tuple-based affine points). -/
def add (P Q : AffPt) : AffPt :=
  match P, Q with
  | none, q => q
  | p, none => p
  | some (x1, y1), some (x2, y2) =>
    let denom := dconst * x1 * x2 * y1 * y2
    let inv_denom_x := modinv ((1 + denom) % pZ) pZ
    let inv_denom_y := modinv ((1 - denom) % pZ) pZ
    some (((x1 * y2 + x2 * y1) * inv_denom_x) % pZ,
          ((x1 * x2 + y1 * y2) * inv_denom_y) % pZ)

/-- `EdwardsCurve.scalar_mult` (edwards_curve.py): double-and-add where the
doubling step is `add R R`; fuel equal to the scalar always suffices
(`Nat.lt_two_pow`). -/
def scalar_mult (scalar : ℕ) (P : AffPt) : AffPt :=
  (damLoop add (fun R => add R R) scalar none P scalar).getD none

/-- `EdwardsCurve.uncompress` (edwards_curve.py; same formulas as the
affine-class version, returning a bare coordinate pair). -/
def uncompress (comp : List ℕ) : Except String (ℤ × ℤ) :=
  if comp.length ≠ 32 then .error "Compressed point must be 32 bytes"
  else
    let sign : ℕ := (comp.getD 31 0 >>> 7) &&& 1
    let comp' := comp.set 31 (comp.getD 31 0 &&& 127)
    let dx : ℤ := (fromBytesLE comp' : ℕ)
    if pZ ≤ dx then .error "Decoded y is not in field range"
    else
      let dx_squared := dx * dx % pZ
      let u := (dx_squared - 1) % pZ
      let v := (dconst * dx_squared + 1) % pZ
      let x_sq := u * modinv v pZ % pZ
      match sqrt_mod x_sq pZ with
      | none => .error "No square root exists for the given input."
      | some x =>
        if x % 2 ≠ (sign : ℤ) then .ok ((-x) % pZ, dx)
        else .ok (x, dx)

/-- `EdwardsCurve.B` as an (affine tuple) point. -/
def B : AffPt := some B_affine

end EdwardsCurve

/-! ## Claim C10: termination and identity behaviour of double-and-add -/

theorem damLoop_total {α : Type} (add : Option α → Option α → Option α)
    (double : Option α → Option α) (fuel : ℕ) :
    ∀ (Q R : Option α) (s : ℕ), s < 2 ^ fuel →
      (damLoop add double fuel Q R s).isSome = true := by
  induction fuel with
  | zero =>
    intro Q R s hs
    have h0 : s = 0 := by simpa using Nat.lt_one_iff.mp (by simpa using hs)
    subst h0
    simp [damLoop]
  | succ fuel ih =>
    intro Q R s hs
    by_cases h0 : s = 0
    · subst h0; simp [damLoop]
    · have hrec : s / 2 < 2 ^ fuel := by
        rw [Nat.pow_succ] at hs
        omega
      simp only [damLoop, h0, if_false]
      exact ih _ _ _ hrec

theorem damLoop_id_id (fuel : ℕ) : ∀ s : ℕ, s < 2 ^ fuel →
    damLoop EdwardsCurve.add (fun R => EdwardsCurve.add R R) fuel none none s
      = some none := by
  induction fuel with
  | zero =>
    intro s hs
    have h0 : s = 0 := by simpa using Nat.lt_one_iff.mp (by simpa using hs)
    subst h0
    simp [damLoop]
  | succ fuel ih =>
    intro s hs
    by_cases h0 : s = 0
    · subst h0; simp [damLoop]
    · have hrec : s / 2 < 2 ^ fuel := by
        rw [Nat.pow_succ] at hs
        omega
      simp only [damLoop, h0, if_false]
      have hQ : (if s % 2 = 1
          then (match (none : AffPt) with
                | none => (none : AffPt)
                | some q => EdwardsCurve.add (some q) none)
          else (none : AffPt)) = none := by
        by_cases hodd : s % 2 = 1 <;> simp [hodd]
      rw [hQ]
      have hR : EdwardsCurve.add none none = none := rfl
      rw [hR]
      exact ih _ hrec

/-- C10. The double-and-add loop terminates whenever the fuel exceeds the bit
length of the scalar (the scalar strictly decreases by halving); scalar `0`
yields the identity, and the identity point is mapped to the identity, in both
the generic `curve.py` wrapper and the Edwards `scalar_mult`. -/
theorem C10_double_and_add :
    (∀ (α : Type) (add : Option α → Option α → Option α)
        (double : Option α → Option α) (fuel : ℕ) (Q R : Option α) (s : ℕ),
        s < 2 ^ fuel → (damLoop add double fuel Q R s).isSome = true) ∧
    (∀ P : AffPt, EdwardsCurve.scalar_mult 0 P = none) ∧
    (∀ s : ℕ, EdwardsCurve.scalar_mult s none = none) ∧
    (∀ (α : Type) (add : Option α → Option α → Option α)
        (double : Option α → Option α) (fuel s : ℕ),
        DoubleAndAddCurve.scalar_mult add double fuel none s = some none) ∧
    (∀ (α : Type) (add : Option α → Option α → Option α)
        (double : Option α → Option α) (fuel : ℕ) (R : Option α),
        DoubleAndAddCurve.scalar_mult add double fuel R 0 = some none) := by
  refine ⟨fun α add double fuel Q R s hs => damLoop_total add double fuel Q R s hs,
    ?_, ?_, ?_, ?_⟩
  · intro P
    simp [EdwardsCurve.scalar_mult, damLoop]
  · intro s
    unfold EdwardsCurve.scalar_mult
    rw [damLoop_id_id s s (Nat.lt_two_pow s)]
    rfl
  · intro α add double fuel s
    rfl
  · intro α add double fuel R
    cases R with
    | none => rfl
    | some r => cases fuel <;> simp [DoubleAndAddCurve.scalar_mult, damLoop]

/-- Witness for C10's termination hypothesis at concrete fuel and scalar. -/
theorem C10_double_and_add_witness :
    (damLoop (α := ℤ × ℤ) (fun a _ => a) (fun r => r) 3 none none 5).isSome
      = true :=
  C10_double_and_add.1 (ℤ × ℤ) (fun a _ => a) (fun r => r) 3 none none 5
    (by norm_num)

/-! ## Claim C2: `Ed25519.verify` (ed25519_signatures.py)

The SHA-512 collaborator is a parameter (`hash`); `Except.error` models a
raised `ValueError` escaping `verify`, `Except.ok` a returned boolean. -/

namespace Ed25519

/-- `Ed25519.verify`: length checks raise; decompression failures of `R` or
`A` are caught and return `False`; otherwise the verification equation
`[t]B == R + [k]A` is evaluated structurally. -/
def verify (hash : List ℕ → List ℕ) (sig msg pk : List ℕ) :
    Except String Bool :=
  if sig.length ≠ 64 then .error "Signature must be 64 bytes"
  else if pk.length ≠ 32 then .error "Public key must be 32 bytes"
  else
    let R_comp := sig.take 32
    let t_bytes := sig.drop 32
    let t_int := fromBytesLE t_bytes % qN
    match EdwardsCurve.uncompress R_comp, EdwardsCurve.uncompress pk with
    | .ok R, .ok A =>
      let k_int := fromBytesLE (hash (R_comp ++ pk ++ msg)) % qN
      let LHS := EdwardsCurve.scalar_mult t_int EdwardsCurve.B
      let kA := EdwardsCurve.scalar_mult k_int (some A)
      let RHS := EdwardsCurve.add (some R) kA
      .ok (decide (LHS = RHS))
    | _, _ => .ok false

end Ed25519

/-- A stand-in for the external SHA-512 collaborator, used in closed
instances of the claims about `verify`. -/
def hash_stub : List ℕ → List ℕ := fun _ => List.replicate 64 0

/-- C2, counterexample: on a 63-byte signature `verify` propagates a raised
`BadLength`-style error instead of returning `false`. -/
theorem C2_verify_length_error :
    Ed25519.verify hash_stub (List.replicate 63 0) [] (List.replicate 32 0)
        = .error "Signature must be 64 bytes" ∧
    Ed25519.verify hash_stub (List.replicate 63 0) [] (List.replicate 32 0)
        ≠ .ok false := by
  constructor
  · rfl
  · intro h
    exact Except.noConfusion h

/-- C2, amended. For a 64-byte signature and 32-byte key, `verify` always
returns a boolean, and a decompression failure of `R` or `A` yields
`.ok false`; but a length failure raises an error (see
`C2_verify_length_error`) instead of returning `false`. -/
theorem C2_verify_returns_bool (hash : List ℕ → List ℕ) (sig msg pk : List ℕ)
    (hs : sig.length = 64) (hp : pk.length = 32) :
    (∃ b, Ed25519.verify hash sig msg pk = .ok b) ∧
    (((∃ e, EdwardsCurve.uncompress (sig.take 32) = .error e) ∨
      (∃ e, EdwardsCurve.uncompress pk = .error e)) →
      Ed25519.verify hash sig msg pk = .ok false) := by
  simp only [Ed25519.verify]
  rw [if_neg (by rw [hs]; exact fun h => h rfl),
    if_neg (by rw [hp]; exact fun h => h rfl)]
  rcases hR : EdwardsCurve.uncompress (sig.take 32) with eR | R <;>
    rcases hA : EdwardsCurve.uncompress pk with eA | A
  · exact ⟨⟨false, rfl⟩, fun _ => rfl⟩
  · exact ⟨⟨false, rfl⟩, fun _ => rfl⟩
  · exact ⟨⟨false, rfl⟩, fun _ => rfl⟩
  · refine ⟨⟨_, rfl⟩, ?_⟩
    rintro (⟨e, he⟩ | ⟨e, he⟩)
    · exact Except.noConfusion he
    · exact Except.noConfusion he

/-- Witness for the amended C2 at a concrete 64-byte signature. -/
theorem C2_verify_returns_bool_witness :
    ∃ b, Ed25519.verify hash_stub (List.replicate 64 0) [] (List.replicate 32 0)
      = .ok b :=
  (C2_verify_returns_bool hash_stub (List.replicate 64 0) [] (List.replicate 32 0)
    (by decide) (by decide)).1

/-! ## Quadratic-residue facts: `d` and `-d` are non-squares mod `p` -/

theorem cast_eq_zero_iff_emod (a : ℤ) : ((a : ZMod pN) = 0) ↔ a % pZ = 0 := by
  have h := emod_eq_emod_iff_cast a 0
  rw [Int.zero_emod, Int.cast_zero] at h
  exact h.symm

theorem two_ne_zero_zmod : (2 : ZMod pN) ≠ 0 := by
  intro h
  have h2 : ((2 : ℕ) : ZMod pN) = 0 := by exact_mod_cast h
  have := (ZMod.natCast_zmod_eq_zero_iff_dvd 2 pN).mp h2
  have hle := Nat.le_of_dvd (by norm_num) this
  rw [pN] at hle
  omega

theorem euler_nonsquare (c : ℤ)
    (hc : pyPow c ((pZ - 1) / 2).toNat pZ = pZ - 1) :
    ¬ IsSquare ((c : ℤ) : ZMod pN) := by
  rintro ⟨b, hb⟩
  have hpow : (c : ZMod pN) ^ ((pZ - 1) / 2).toNat = ((pZ - 1 : ℤ) : ZMod pN) := by
    rw [← cast_pyPow, hc]
  have hm1 : ((pZ - 1 : ℤ) : ZMod pN) = -1 := by
    rw [pZ_eq_cast]
    push_cast
    simp
  rw [hm1, hb] at hpow
  haveI : Fact (2 < pN) := ⟨by norm_num [pN]⟩
  by_cases hb0 : b = 0
  · rw [hb0, mul_zero] at hpow
    have he : ((pZ - 1) / 2).toNat ≠ 0 := by decide
    rw [zero_pow he] at hpow
    exact one_ne_zero (neg_eq_zero.mp hpow.symm)
  · have hsplit : (b * b) ^ ((pZ - 1) / 2).toNat = b ^ (pN - 1) := by
      rw [← sq, ← pow_mul]
      congr 1
    rw [hsplit, ZMod.pow_card_sub_one_eq_one hb0] at hpow
    exact ZMod.neg_one_ne_one hpow.symm

theorem not_square_d : ¬ IsSquare ((dconst : ℤ) : ZMod pN) :=
  euler_nonsquare dconst (by decide)

theorem not_square_neg_d : ¬ IsSquare ((-dconst : ℤ) : ZMod pN) :=
  euler_nonsquare (-dconst) (by decide)

/-- Completeness denominators: for `z ≠ 0`, both `z² + d·t²` and `z² - d·t²`
are invertible in the field. -/
theorem denom_sum_ne_zero {z t : ZMod pN} (hz : z ≠ 0) :
    z * z + ((dconst : ℤ) : ZMod pN) * (t * t) ≠ 0 := by
  intro h
  by_cases ht : t = 0
  · rw [ht] at h
    simp only [mul_zero, add_zero] at h
    exact hz (mul_self_eq_zero.mp h)
  · apply not_square_neg_d
    refine ⟨z * t⁻¹, ?_⟩
    push_cast
    field_simp
    linear_combination -h

theorem denom_diff_ne_zero {z t : ZMod pN} (hz : z ≠ 0) :
    z * z - ((dconst : ℤ) : ZMod pN) * (t * t) ≠ 0 := by
  intro h
  by_cases ht : t = 0
  · rw [ht] at h
    simp only [mul_zero, sub_zero] at h
    exact hz (mul_self_eq_zero.mp h)
  · apply not_square_d
    refine ⟨z * t⁻¹, ?_⟩
    field_simp
    linear_combination -h

/-! ## Claim C6: extended addition is commutative, doubling agrees with
addition of a point to itself -/

/-- The extended-coordinate curve invariants: `Z` invertible, `X·Y ≡ Z·T`,
and the projective form of `-x² + y² = 1 + d x² y²`. -/
def onCurveE (P : ExtPt) : Prop :=
  match P with
  | none => True
  | some (X, Y, Z, T) =>
    Z % pZ ≠ 0 ∧ (X * Y) % pZ = (Z * T) % pZ ∧
      (-(X * X) + Y * Y) % pZ = (Z * Z + dconst * (T * T)) % pZ

instance onCurveE_decidable : (P : ExtPt) → Decidable (onCurveE P)
  | none => .isTrue trivial
  | some (X, Y, Z, T) =>
    inferInstanceAs (Decidable (Z % pZ ≠ 0 ∧ (X * Y) % pZ = (Z * T) % pZ ∧
      (-(X * X) + Y * Y) % pZ = (Z * Z + dconst * (T * T)) % pZ))

theorem ext_add_comm_exact (P Q : ExtPt) :
    ExtendedEdwardsCurve.add P Q = ExtendedEdwardsCurve.add Q P := by
  cases P with
  | none => cases Q <;> rfl
  | some p =>
    cases Q with
    | none => rfl
    | some q =>
      obtain ⟨X1, Y1, Z1, T1⟩ := p
      obtain ⟨X2, Y2, Z2, T2⟩ := q
      simp only [ExtendedEdwardsCurve.add, Option.some.injEq, Prod.mk.injEq]
      refine ⟨?_, ?_, ?_, ?_⟩ <;>
      · rw [emod_eq_emod_iff_cast]
        push_cast [cast_emod_pZ]
        ring

theorem mul_inv_cross {u1 v1 u2 v2 : ZMod pN} (h1 : v1 ≠ 0) (h2 : v2 ≠ 0)
    (h : u1 * v2 = u2 * v1) : u1 * v1⁻¹ = u2 * v2⁻¹ := by
  field_simp
  linear_combination h

/-- `modinv` casts to the field inverse unconditionally (in a field,
`0⁻¹ = 0` and `0 ^ (p - 2) = 0`). -/
theorem modinv_cast_inv0 (x : ℤ) :
    ((modinv x pZ : ℤ) : ZMod pN) = (x : ZMod pN)⁻¹ := by
  by_cases hx : (x : ZMod pN) = 0
  · rw [modinv_cast, hx, inv_zero]
    exact zero_pow (by norm_num [pN])
  · exact modinv_cast_inv hx

theorem ext_double_eq_add_self (P : ExtPt) (hP : onCurveE P) :
    ExtendedEdwardsCurve.to_affine (ExtendedEdwardsCurve.double P)
      = ExtendedEdwardsCurve.to_affine
          (ExtendedEdwardsCurve.add P P) := by
  cases P with
  | none => rfl
  | some p =>
    obtain ⟨X, Y, Z, T⟩ := p
    obtain ⟨hz0, hxy0, hc0⟩ := hP
    have hz : (Z : ZMod pN) ≠ 0 := fun h => hz0 ((cast_eq_zero_iff_emod Z).mp h)
    have hcurve : -((X : ZMod pN) * X) + (Y : ZMod pN) * Y
        = (Z : ZMod pN) * Z + ((dconst : ℤ) : ZMod pN) * ((T : ZMod pN) * T) := by
      have h := (emod_eq_emod_iff_cast _ _).mp hc0
      push_cast at h
      exact h
    have hsum := denom_sum_ne_zero (t := (T : ZMod pN)) hz
    have hdiff := denom_diff_ne_zero (t := (T : ZMod pN)) hz
    have h2 : (2 : ZMod pN) ≠ 0 := two_ne_zero_zmod
    simp only [ExtendedEdwardsCurve.double, ExtendedEdwardsCurve.add,
      ExtendedEdwardsCurve.to_affine, ExtendedEdwardsCurve.projective_to_affine,
      aconst, Option.some.injEq, Prod.mk.injEq]
    constructor
    · rw [emod_eq_emod_iff_cast, Int.cast_mul, Int.cast_mul,
        modinv_cast_inv0, modinv_cast_inv0]
      refine mul_inv_cross ?_ ?_ ?_
      · rw [cast_emod_pZ]
        push_cast [cast_emod_pZ]
        intro h0
        apply mul_ne_zero (neg_ne_zero.mpr hdiff) hsum
        linear_combination h0 + (-(((dconst : ℤ) : ZMod pN) * ((T:ZMod pN) * T)
          + (-((X : ZMod pN) * X) + (Y : ZMod pN) * Y) - (Z:ZMod pN) * Z)) * hcurve
      · rw [cast_emod_pZ]
        push_cast [cast_emod_pZ]
        intro h0
        apply mul_ne_zero (mul_ne_zero h2 hdiff) (mul_ne_zero h2 hsum)
        linear_combination h0
      · push_cast [cast_emod_pZ]
        linear_combination (-(4:ZMod pN) * (X:ZMod pN) * (Y:ZMod pN)
          * (2*(Z:ZMod pN)*(Z:ZMod pN) - 2*((dconst : ℤ) : ZMod pN)*((T:ZMod pN)*(T:ZMod pN)))
          * (-((X:ZMod pN)*(X:ZMod pN)) + (Y:ZMod pN)*(Y:ZMod pN) - 2*(Z:ZMod pN)*(Z:ZMod pN))) * hcurve
    · rw [emod_eq_emod_iff_cast, Int.cast_mul, Int.cast_mul,
        modinv_cast_inv0, modinv_cast_inv0]
      refine mul_inv_cross ?_ ?_ ?_
      · rw [cast_emod_pZ]
        push_cast [cast_emod_pZ]
        intro h0
        apply mul_ne_zero (neg_ne_zero.mpr hdiff) hsum
        linear_combination h0 + (-(((dconst : ℤ) : ZMod pN) * ((T:ZMod pN) * T)
          + (-((X : ZMod pN) * X) + (Y : ZMod pN) * Y) - (Z:ZMod pN) * Z)) * hcurve
      · rw [cast_emod_pZ]
        push_cast [cast_emod_pZ]
        intro h0
        apply mul_ne_zero (mul_ne_zero h2 hdiff) (mul_ne_zero h2 hsum)
        linear_combination h0
      · push_cast [cast_emod_pZ]
        linear_combination ((-(2:ZMod pN))
          * (2*(Z:ZMod pN)*(Z:ZMod pN) + 2*((dconst : ℤ) : ZMod pN)*((T:ZMod pN)*(T:ZMod pN)))
          * (-((X:ZMod pN)*(X:ZMod pN)) + (Y:ZMod pN)*(Y:ZMod pN))
          * ((X:ZMod pN)*(X:ZMod pN) + (Y:ZMod pN)*(Y:ZMod pN))) * hcurve

/-- C6. For extended Edwards points on the curve (identity included),
`add P Q` and `add Q P` have the same affine projection, and `double P`
has the same affine projection as `add P P`. -/
theorem C6_add_comm_double_affine (P Q : ExtPt) (hP : onCurveE P)
    (_hQ : onCurveE Q) :
    ExtendedEdwardsCurve.to_affine (ExtendedEdwardsCurve.add P Q)
      = ExtendedEdwardsCurve.to_affine (ExtendedEdwardsCurve.add Q P) ∧
    ExtendedEdwardsCurve.to_affine (ExtendedEdwardsCurve.double P)
      = ExtendedEdwardsCurve.to_affine (ExtendedEdwardsCurve.add P P) :=
  ⟨by rw [ext_add_comm_exact], ext_double_eq_add_self P hP⟩

/-- The Ed25519 base point in extended coordinates. -/
def BExt : ExtPt := ExtendedEdwardsCurve.from_affine (some B_affine)

/-- Witness for C6 at the base point. -/
theorem C6_add_comm_double_affine_witness :
    ExtendedEdwardsCurve.to_affine (ExtendedEdwardsCurve.double BExt)
      = ExtendedEdwardsCurve.to_affine (ExtendedEdwardsCurve.add BExt BExt) :=
  (C6_add_comm_double_affine BExt BExt (by decide) (by decide)).2

/-! ## Claim C3: `uncompress (compress P) = P` for on-curve points -/

theorem toBytesLE_succ_append (l : ℕ) :
    ∀ n, toBytesLE (l + 1) n = toBytesLE l n ++ [n / 256 ^ l % 256] := by
  induction l with
  | zero => intro n; simp [toBytesLE]
  | succ l ih =>
    intro n
    conv_lhs => rw [toBytesLE]
    conv_rhs => rw [toBytesLE]
    rw [ih (n / 256)]
    simp only [List.cons_append, List.cons.injEq, true_and]
    rw [Nat.div_div_eq_div_mul, ← pow_succ']

theorem byte_or128 : ∀ b < 128, b ||| 128 = b + 128 := by decide

theorem byte_and127_small : ∀ b < 128, b &&& 127 = b := by decide

theorem byte_and127_large : ∀ b < 128, (b + 128) &&& 127 = b := by decide

theorem byte_shift_high : ∀ b < 128, ((b + 128) >>> 7) &&& 1 = 1 := by decide

theorem byte_shift_low : ∀ b < 128, (b >>> 7) &&& 1 = 0 := by decide

theorem pyPow_range (b : ℤ) (e : ℕ) : 0 ≤ pyPow b e pZ ∧ pyPow b e pZ < pZ := by
  rw [pyPow_spec _ _ _ pZ_pos]
  exact ⟨emod_nonneg_pZ _, emod_lt_pZ _⟩

theorem zmod_sq_cases {η : ZMod pN} (h : η * η = 1) : η = 1 ∨ η = -1 := by
  have hsplit : (η - 1) * (η + 1) = 0 := by linear_combination h
  rcases mul_eq_zero.mp hsplit with h1 | h1
  · exact Or.inl (by linear_combination h1)
  · exact Or.inr (by linear_combination h1)

/-- If `a` is a square in the field, `sqrt_mod a p` succeeds, staying in
`[0, p)`, and its result squares to `a`. -/
theorem sqrt_mod_succeeds (a x : ℤ) (ha : 0 ≤ a) (ha' : a < pZ)
    (hsq : (a : ZMod pN) = (x : ZMod pN) * (x : ZMod pN)) :
    ∃ r, sqrt_mod a pZ = some r ∧ 0 ≤ r ∧ r < pZ ∧
      (r : ZMod pN) * (r : ZMod pN) = (x : ZMod pN) * (x : ZMod pN) := by
  by_cases hc1 : (a ^ ((pZ + 3) / 8).toNat % pZ) * (a ^ ((pZ + 3) / 8).toNat % pZ) % pZ
      = a % pZ
  · refine ⟨a ^ ((pZ + 3) / 8).toNat % pZ, (C5_sqrt_mod a).1 hc1,
      emod_nonneg_pZ _, emod_lt_pZ _, ?_⟩
    have hcast := (emod_eq_emod_iff_cast _ _).mp hc1
    rw [← hsq, ← Int.cast_mul]
    exact hcast
  · by_cases hc2 : (a ^ ((pZ + 3) / 8).toNat % pZ) * (a ^ ((pZ + 3) / 8).toNat % pZ) % pZ
        = (-a) % pZ
    · refine ⟨(a ^ ((pZ + 3) / 8).toNat % pZ) * ((2 : ℤ) ^ ((pZ - 1) / 4).toNat % pZ) % pZ,
        (C5_sqrt_mod a).2.1 hc1 hc2, emod_nonneg_pZ _, emod_lt_pZ _, ?_⟩
      have hsqr := (C5_sqrt_mod a).2.2.2 _ ((C5_sqrt_mod a).2.1 hc1 hc2)
      have hcast := (emod_eq_emod_iff_cast _ _).mp hsqr
      rw [← hsq, ← Int.cast_mul]
      exact hcast
    · exfalso
      -- one of the two branches must be taken when a is a square
      by_cases hx0 : (x : ZMod pN) = 0
      · -- then a = 0, and the first branch test succeeds
        apply hc1
        have ha0 : a = 0 := by
          refine int_eq_of_cast_eq ha ha' (by norm_num) pZ_pos ?_
          rw [hsq, hx0, mul_zero, Int.cast_zero]
        subst ha0
        have hzp : (0 : ℤ) ^ ((pZ + 3) / 8).toNat = 0 :=
          zero_pow (by decide)
        rw [hzp]
        norm_num
      · -- x ≠ 0 : a^((p+3)/8) squares to ±a
        have hr0cast : ((a ^ ((pZ + 3) / 8).toNat % pZ : ℤ) : ZMod pN)
            = (x : ZMod pN) ^ (2 * ((pZ + 3) / 8).toNat) := by
          rw [cast_emod_pZ]
          push_cast
          rw [hsq, ← sq, ← pow_mul]
        have hval : ((a ^ ((pZ + 3) / 8).toNat % pZ : ℤ) : ZMod pN)
              * ((a ^ ((pZ + 3) / 8).toNat % pZ : ℤ) : ZMod pN)
            = (x : ZMod pN) ^ ((pN - 1) / 2) * ((x : ZMod pN) * (x : ZMod pN)) := by
          rw [hr0cast, ← pow_add]
          have hexp : 2 * ((pZ + 3) / 8).toNat + 2 * ((pZ + 3) / 8).toNat
              = (pN - 1) / 2 + 2 := by decide
          rw [hexp, pow_add, sq]
        have heta : (x : ZMod pN) ^ ((pN - 1) / 2) * ((x : ZMod pN) ^ ((pN - 1) / 2)) = 1 := by
          rw [← pow_add]
          have hexp2 : (pN - 1) / 2 + (pN - 1) / 2 = pN - 1 := by decide
          rw [hexp2]
          exact ZMod.pow_card_sub_one_eq_one hx0
        rcases zmod_sq_cases heta with h1 | h1
        · apply hc1
          rw [emod_eq_emod_iff_cast, Int.cast_mul, hval, h1, one_mul, hsq]
        · apply hc2
          rw [emod_eq_emod_iff_cast, Int.cast_mul, hval, h1, Int.cast_neg, hsq]
          ring

/-- Evaluation of `uncompress` on the encoding of an on-curve point
`(x, y)` whose sign byte carries `s = x mod 2`. -/
theorem uncompress_on_curve (x y : ℤ) (s : ℕ) (hx0 : 0 ≤ x) (hx1 : x < pZ)
    (hy0 : 0 ≤ y) (hy1 : y < pZ)
    (hcurve : (-(x * x) + y * y) % pZ = (1 + dconst * (x * x) * (y * y)) % pZ)
    (hs : s = 0 ∨ s = 1) (hxs : x % 2 = (s : ℤ)) :
    AffineEdwardsCurve.uncompress
        (toBytesLE 31 y.toNat ++ [y.toNat / 256 ^ 31 % 256 + 128 * s])
      = .ok (x, y) := by
  have hpodd : pZ % 2 = 1 := by decide
  have hppos := pZ_pos
  set n := y.toNat with hn
  have hyn : (n : ℤ) = y := Int.toNat_of_nonneg hy0
  have hpZlt : pZ < 2 ^ 255 := by norm_num [pZ]
  have hn255 : n < 2 ^ 255 := by omega
  set ys := toBytesLE 31 n with hys
  have hyslen : ys.length = 31 := toBytesLE_length 31 n
  set b31 := n / 256 ^ 31 % 256 with hb31
  have hb31small : b31 < 128 := by
    have hpow : (256 : ℕ) ^ 31 = 2 ^ 248 := by norm_num
    have h1 : n / 256 ^ 31 < 128 := by
      rw [hpow]
      omega
    omega
  set c31 := b31 + 128 * s with hc31
  have hsplit : toBytesLE 32 n = ys ++ [b31] := toBytesLE_succ_append 31 n
  -- byte-level facts
  have hgetD : (ys ++ [c31]).getD 31 0 = c31 := by
    have h := getD_last_append ys c31
    rwa [hyslen] at h
  have hshift : (c31 >>> 7) &&& 1 = s := by
    rcases hs with rfl | rfl
    · simpa [hc31] using byte_shift_low b31 hb31small
    · simpa [hc31] using byte_shift_high b31 hb31small
  have hand : c31 &&& 127 = b31 := by
    rcases hs with rfl | rfl
    · simpa [hc31] using byte_and127_small b31 hb31small
    · simpa [hc31] using byte_and127_large b31 hb31small
  have hset31 : (ys ++ [c31]).set 31 b31 = ys ++ [b31] := by
    have h := set_last_append ys c31 b31
    rwa [hyslen] at h
  have hlen : ((ys ++ [c31]).length ≠ 32) = False := by
    simp [hyslen]
  have hfrom : fromBytesLE (ys ++ [b31]) = n := by
    rw [← hsplit, fromBytesLE_toBytesLE]
    have h32 : (256 : ℕ) ^ 32 = 2 ^ 256 := by norm_num
    rw [h32]
    omega
  -- the square-root step
  have hxz : ∀ u : ℤ, ((u : ℤ) : ZMod pN) = (u : ZMod pN) := fun u => rfl
  have hcurveZ : -((x : ZMod pN) * x) + (y : ZMod pN) * y
      = 1 + ((dconst : ℤ) : ZMod pN) * ((x : ZMod pN) * x) * ((y : ZMod pN) * y) := by
    have h := (emod_eq_emod_iff_cast _ _).mp hcurve
    push_cast at h
    exact h
  have hvne : ((dconst : ℤ) : ZMod pN) * (((y : ZMod pN)) * y) + 1 ≠ 0 := by
    intro h
    apply denom_sum_ne_zero (z := (1 : ZMod pN)) (t := (y : ZMod pN)) one_ne_zero
    linear_combination h
  have hsqcast : ((((y * y % pZ - 1) % pZ) * modinv ((dconst * (y * y % pZ) + 1) % pZ) pZ
        % pZ : ℤ) : ZMod pN) = (x : ZMod pN) * (x : ZMod pN) := by
    rw [cast_emod_pZ, Int.cast_mul, modinv_cast_inv0, cast_emod_pZ, cast_emod_pZ]
    push_cast [cast_emod_pZ]
    rw [mul_inv_eq_iff_eq_mul₀ (by
      intro h
      apply hvne
      linear_combination h)]
    linear_combination hcurveZ
  obtain ⟨r, hrmod, hr0, hr1, hrsq⟩ := sqrt_mod_succeeds
    (((y * y % pZ - 1) % pZ) * modinv ((dconst * (y * y % pZ) + 1) % pZ) pZ % pZ) x
    (emod_nonneg_pZ _) (emod_lt_pZ _) hsqcast
  -- evaluate uncompress
  rw [AffineEdwardsCurve.uncompress]
  have hlen32 : (ys ++ [c31]).length = 32 := by
    rw [List.length_append, hyslen]
    rfl
  rw [if_neg (fun h => h hlen32)]
  dsimp only []
  rw [hgetD, hshift, hand, hset31, hfrom, hyn]
  rw [if_neg (by omega)]
  rw [hrmod]
  dsimp only []
  have hrcases : (r : ZMod pN) = (x : ZMod pN) ∨ (r : ZMod pN) = -(x : ZMod pN) := by
    have hfac : ((r : ZMod pN) - x) * ((r : ZMod pN) + x) = 0 := by
      linear_combination hrsq
    rcases mul_eq_zero.mp hfac with h | h
    · exact Or.inl (by linear_combination h)
    · exact Or.inr (by linear_combination h)
  rcases hrcases with hre | hre
  · have hrx : r = x := int_eq_of_cast_eq hr0 hr1 hx0 hx1 hre
    subst hrx
    rw [if_neg (by omega)]
  · by_cases hxzero : x = 0
    · have hrx : r = x := by
        apply int_eq_of_cast_eq hr0 hr1 hx0 hx1
        rw [hre, hxzero]
        norm_num
      subst hrx
      rw [if_neg (by omega)]
    · have hxpos : 0 < x := by omega
      have hrval : r = pZ - x := by
        apply int_eq_of_cast_eq hr0 hr1 (by omega) (by omega)
        rw [hre]
        push_cast [pZ_eq_cast]
        simp [ZMod.natCast_self]
      have hrpar : r % 2 ≠ (s : ℤ) := by
        rcases hs with rfl | rfl <;> omega
      have hneg : (-(pZ - x)) % pZ = x := by
        have h2 : -(pZ - x) = x + pZ * (-1) := by ring
        rw [h2, Int.add_mul_emod_self_left, Int.emod_eq_of_lt hx0 hx1]
      rw [if_pos hrpar, hrval, hneg]

/-- C3: for every non-identity point `(x, y)` of Edwards25519 — reduced
coordinates satisfying the curve equation `-x² + y² ≡ 1 + d·x²·y² (mod p)` —
`compress` succeeds and `uncompress` of its output returns `(x, y)` again. -/
theorem C3_uncompress_compress (x y : ℤ) (hx0 : 0 ≤ x) (hx1 : x < pZ)
    (hy0 : 0 ≤ y) (hy1 : y < pZ)
    (hcurve : (-(x * x) + y * y) % pZ = (1 + dconst * (x * x) * (y * y)) % pZ) :
    ∃ c, AffineEdwardsCurve.compress (some (x, y)) = .ok c ∧
      AffineEdwardsCurve.uncompress c = .ok (x, y) := by
  set n := y.toNat with hn
  set ys := toBytesLE 31 n with hys
  have hyslen : ys.length = 31 := toBytesLE_length 31 n
  set b31 := n / 256 ^ 31 % 256 with hb31
  have hpZlt : pZ < 2 ^ 255 := by norm_num [pZ]
  have hyn : (n : ℤ) = y := Int.toNat_of_nonneg hy0
  have hb31small : b31 < 128 := by
    have hn255 : n < 2 ^ 255 := by omega
    have hpow : (256 : ℕ) ^ 31 = 2 ^ 248 := by norm_num
    have h1 : n / 256 ^ 31 < 128 := by
      rw [hpow]
      omega
    omega
  have hsplit : toBytesLE 32 n = ys ++ [b31] := toBytesLE_succ_append 31 n
  have hgetD : (ys ++ [b31]).getD 31 0 = b31 := by
    have h := getD_last_append ys b31
    rwa [hyslen] at h
  have hset : ∀ c, (ys ++ [b31]).set 31 c = ys ++ [c] := fun c => by
    have h := set_last_append ys b31 c
    rwa [hyslen] at h
  by_cases hpar : x % 2 = 1
  · refine ⟨ys ++ [b31 + 128 * 1], ?_, ?_⟩
    · rw [AffineEdwardsCurve.compress]
      rw [← hn, hsplit, if_pos hpar, hgetD, byte_or128 b31 hb31small, hset]
    · exact uncompress_on_curve x y 1 hx0 hx1 hy0 hy1 hcurve (Or.inr rfl)
        (by push_cast; omega)
  · have hpar0 : x % 2 = 0 := by omega
    refine ⟨ys ++ [b31 + 128 * 0], ?_, ?_⟩
    · rw [AffineEdwardsCurve.compress]
      rw [← hn, hsplit, if_neg hpar, hgetD, byte_and127_small b31 hb31small, hset]
      norm_num
    · exact uncompress_on_curve x y 0 hx0 hx1 hy0 hy1 hcurve (Or.inl rfl)
        (by push_cast; omega)

/-- Witness for C3 at the Ed25519 base point. -/
theorem C3_uncompress_compress_witness :
    (0 ≤ B_affine.1 ∧ B_affine.1 < pZ ∧ 0 ≤ B_affine.2 ∧ B_affine.2 < pZ ∧
      (-(B_affine.1 * B_affine.1) + B_affine.2 * B_affine.2) % pZ
        = (1 + dconst * (B_affine.1 * B_affine.1)
            * (B_affine.2 * B_affine.2)) % pZ) ∧
    ∃ c, AffineEdwardsCurve.compress (some (B_affine.1, B_affine.2)) = .ok c ∧
      AffineEdwardsCurve.uncompress c = .ok (B_affine.1, B_affine.2) :=
  ⟨⟨by decide, by decide, by decide, by decide, by decide⟩,
    C3_uncompress_compress B_affine.1 B_affine.2 (by decide) (by decide)
      (by decide) (by decide) (by decide)⟩


/-! ## X25519 Montgomery ladders and claim C1

`montgomery_ladder.py` defines three `MontgomeryLadder` strategies sharing
`self.p = 2^255 - 19`, `self.a24 = 121665` and the byte-level `x25519`
driver. Loops `for t in reversed(range(255))` are embedded with the
remaining iteration count as fuel: fuel `t + 1` processes bit `t`. -/

/-- `MontgomeryLadder.a24 = 121665`. -/
def a24 : ℤ := 121665

/-- Modelled from the spec: `util.cswap(flag, x, y, p)` — the branch-free
arithmetic conditional swap (imported from `util` by `montgomery_ladder.py`
but not among the sources; the spec fixes it as the arithmetic swap, and the
standalone optimized-ladder module carries the same formulas
`dummy = swap*(x - y); x' = (x - dummy) % p; y' = (y + dummy) % p`). -/
def cswap (swap x y p : ℤ) : ℤ × ℤ :=
  ((x - swap * (x - y)) % p, (y + swap * (x - y)) % p)

/-- Modelled from the spec: `util.decode_u` — read 32 little-endian bytes as
an integer after masking bit 255 of the last byte per RFC 7748 (also absent
from the sources; the spec's codec section and the standalone module fix it
as mask-then-decode, with no reduction modulo p). -/
def decode_u (b : List ℕ) : ℤ :=
  (fromBytesLE (b.set 31 (b.getD 31 0 &&& 127)) : ℕ)

/-- `util.encode_u_coordinate`: 32 little-endian bytes. -/
def encode_u_coordinate (x : ℤ) : List ℕ := toBytesLE 32 x.toNat

/-- The curve-arithmetic block of `MontgomeryLadderRFC7748.scalar_mult`
(the loop body after the conditional swap), returning the updated
`(x2, z2, x3, z3)`. -/
def rfcCore (x1 x2 z2 x3 z3 : ℤ) : ℤ × ℤ × ℤ × ℤ :=
  let A := (x2 + z2) % pZ
  let B := (x2 - z2) % pZ
  let AA := (A * A) % pZ
  let BB := (B * B) % pZ
  let E := (AA - BB) % pZ
  let C := (x3 + z3) % pZ
  let D := (x3 - z3) % pZ
  let DA := (D * A) % pZ
  let CB := (C * B) % pZ
  let x3a := (DA + CB) % pZ
  let x3b := (x3a * x3a) % pZ
  let z3a := (DA - CB) % pZ
  let z3b := (z3a * z3a) % pZ
  let z3c := (z3b * x1) % pZ
  let x2a := (AA * BB) % pZ
  let z2a := (E * ((AA + (a24 * E) % pZ) % pZ)) % pZ
  (x2a, z2a, x3b, z3c)

/-- One iteration of the RFC 7748 ladder at bit value `k_t`: the Python
tuple swap when `k_t != swap` (which also sets `swap = k_t`), then the
arithmetic block. -/
def rfcSwapArith (x1 : ℤ) (k_t : ℕ) (x2 z2 x3 z3 : ℤ) (sw : ℕ) :
    ℤ × ℤ × ℤ × ℤ × ℕ :=
  let s := if k_t ≠ sw then (x3, z3, x2, z2, k_t) else (x2, z2, x3, z3, sw)
  let r := rfcCore x1 s.1 s.2.1 s.2.2.1 s.2.2.2.1
  (r.1, r.2.1, r.2.2.1, r.2.2.2, s.2.2.2.2)

/-- The RFC 7748 ladder loop, by remaining fuel. -/
def rfcLoop (k : ℕ) (x1 : ℤ) : ℕ → ℤ → ℤ → ℤ → ℤ → ℕ → ℤ × ℤ × ℤ × ℤ × ℕ
  | 0, x2, z2, x3, z3, sw => (x2, z2, x3, z3, sw)
  | t + 1, x2, z2, x3, z3, sw =>
    let r := rfcSwapArith x1 ((k >>> t) &&& 1) x2 z2 x3 z3 sw
    rfcLoop k x1 t r.1 r.2.1 r.2.2.1 r.2.2.2.1 r.2.2.2.2

/-- `MontgomeryLadderRFC7748.scalar_mult`: initial state
`x2, z2 = 1, 0; x3, z3 = u, 1; swap = 0`, the 255-bit loop, the final
Python swap, and `x2 * modinv(z2) % p`. -/
def rfc_scalar_mult (k : ℕ) (u : ℤ) : ℤ :=
  let r := rfcLoop k u 255 1 0 u 1 0
  let x2 := if r.2.2.2.2 ≠ 0 then r.2.2.1 else r.1
  let z2 := if r.2.2.2.2 ≠ 0 then r.2.2.2.1 else r.2.1
  (x2 * modinv z2 pZ) % pZ

/-- `MontgomeryLadderMKTutorial.ladder_step`: fused projective doubling of
`(X0:Z0)` and differential addition of `(X1:Z1)`. -/
def ladder_step (X0 Z0 X1 Z1 xP : ℤ) : ℤ × ℤ × ℤ × ℤ :=
  let A := (X0 + Z0) % pZ
  let B := (X0 - Z0) % pZ
  let AA := (A * A) % pZ
  let BB := (B * B) % pZ
  let C := (AA - BB) % pZ
  let new_X0 := (AA * BB) % pZ
  let new_Z0 := (C * (AA + (a24 * C) % pZ)) % pZ
  let D := (X1 + Z1) % pZ
  let E := (X1 - Z1) % pZ
  let DA := (E * A) % pZ
  let CB := (D * B) % pZ
  let new_X1 := ((DA + CB) % pZ) ^ 2 % pZ
  let new_Z1 := (xP * (((DA - CB) % pZ) ^ 2)) % pZ
  (new_X0, new_Z0, new_X1, new_Z1)

/-- One iteration of the MK-tutorial ladder at bit value `k_t`:
`swap_bit = swap ^ k_t`, `cswap` on the X and Z pairs, one `ladder_step`,
and `swap = k_t`. -/
def mkSwapArith (xP : ℤ) (k_t : ℕ) (X0 Z0 X1 Z1 : ℤ) (sw : ℕ) :
    ℤ × ℤ × ℤ × ℤ × ℕ :=
  let swap_bit := sw ^^^ k_t
  let x := cswap (swap_bit : ℤ) X0 X1 pZ
  let z := cswap (swap_bit : ℤ) Z0 Z1 pZ
  let r := ladder_step x.1 z.1 x.2 z.2 xP
  (r.1, r.2.1, r.2.2.1, r.2.2.2, k_t)

/-- The MK-tutorial ladder loop, by remaining fuel. -/
def mkLoop (k : ℕ) (xP : ℤ) : ℕ → ℤ → ℤ → ℤ → ℤ → ℕ → ℤ × ℤ × ℤ × ℤ × ℕ
  | 0, X0, Z0, X1, Z1, sw => (X0, Z0, X1, Z1, sw)
  | t + 1, X0, Z0, X1, Z1, sw =>
    let r := mkSwapArith xP ((k >>> t) &&& 1) X0 Z0 X1 Z1 sw
    mkLoop k xP t r.1 r.2.1 r.2.2.1 r.2.2.2.1 r.2.2.2.2

/-- `MontgomeryLadderMKTutorial.scalar_mult`: `R0 = (1:0)`, `R1 = (u:1)`,
the 255-bit loop, the final `cswap`, and `projective_to_affine(X0, Z0, p)`. -/
def mk_scalar_mult (k : ℕ) (u : ℤ) : ℤ :=
  let r := mkLoop k u 255 1 0 u 1 0
  let x := cswap (r.2.2.2.2 : ℤ) r.1 r.2.2.1 pZ
  let z := cswap (r.2.2.2.2 : ℤ) r.2.1 r.2.2.2.1 pZ
  ExtendedEdwardsCurve.projective_to_affine x.1 z.1 pZ

/-- One iteration of `MontgomeryLadderOptimized.scalar_mult` at bit value
`bit`: pre-step `cswap`s, the 18-operation block — with Python's operator
precedence (`x + y % p` is `x + (y % p)`, `x * y % p` is `(x * y) % p`)
reproduced verbatim — and post-step `cswap`s. -/
def optSwapArith (xP : ℤ) (bit : ℕ) (a0 b0 c0 d0 : ℤ) : ℤ × ℤ × ℤ × ℤ :=
  let ab := cswap (bit : ℤ) a0 b0 pZ
  let cd := cswap (bit : ℤ) c0 d0 pZ
  let a := ab.1
  let b := ab.2
  let c := cd.1
  let d := cd.2
  let e := a + c % pZ
  let a := a - c % pZ
  let c := b + d % pZ
  let b := b - d % pZ
  let d := e * e % pZ
  let f_val := a * a % pZ
  let a := c * a % pZ
  let c := b * e % pZ
  let e := a + c % pZ
  let a := a - c % pZ
  let b := a * a % pZ
  let c := d - f_val % pZ
  let a := c * a24 % pZ
  let a := a + d % pZ
  let c := c * a % pZ
  let a := d * f_val % pZ
  let d := b * xP % pZ
  let b := e * e % pZ
  let ab2 := cswap (bit : ℤ) a b pZ
  let cd2 := cswap (bit : ℤ) c d pZ
  (ab2.1, ab2.2, cd2.1, cd2.2)

/-- The optimized ladder loop (`for i in range(254, -1, -1)`), by remaining
fuel. -/
def optLoop (k : ℕ) (xP : ℤ) : ℕ → ℤ → ℤ → ℤ → ℤ → ℤ × ℤ × ℤ × ℤ
  | 0, a, b, c, d => (a, b, c, d)
  | i + 1, a, b, c, d =>
    let r := optSwapArith xP ((k >>> i) &&& 1) a b c d
    optLoop k xP i r.1 r.2.1 r.2.2.1 r.2.2.2

/-- `MontgomeryLadderOptimized.scalar_mult`: state `a, b, c, d = 1, xP, 0, 1`,
the 255-bit loop, and `a * modinv(c) % p`. -/
def opt_scalar_mult (k : ℕ) (xP : ℤ) : ℤ :=
  let r := optLoop k xP 255 1 xP 0 1
  r.1 * modinv r.2.2.1 pZ % pZ

/-- `MontgomeryLadder.x25519`, the byte-level driver shared by the three
strategies: clamp the scalar, decode the u-coordinate, run the strategy's
`scalar_mult`, encode the result. -/
def x25519 (scalar_mult : ℕ → ℤ → ℤ) (k_bytes u_bytes : List ℕ) : List ℕ :=
  encode_u_coordinate (scalar_mult (clamp_scalar k_bytes) (decode_u u_bytes))

theorem and1_01 (n : ℕ) : n &&& 1 = 0 ∨ n &&& 1 = 1 := by
  rw [Nat.and_one_is_mod]
  omega

theorem modinv_emod (x : ℤ) : modinv (x % pZ) pZ = modinv x pZ := by
  unfold modinv pyPow
  rw [Int.emod_emod_of_dvd x dvd_rfl]

theorem modinv_cast_congr (x y : ℤ) (h : (x : ZMod pN) = (y : ZMod pN)) :
    ((modinv x pZ : ℤ) : ZMod pN) = ((modinv y pZ : ℤ) : ZMod pN) := by
  rw [modinv_cast_inv0, modinv_cast_inv0, h]

theorem cswap_nat_zero (x y : ℤ) :
    cswap ((0 : ℕ) : ℤ) x y pZ = (x % pZ, y % pZ) := by
  unfold cswap
  norm_num

theorem cswap_nat_one (x y : ℤ) :
    cswap ((1 : ℕ) : ℤ) x y pZ = (y % pZ, x % pZ) := by
  unfold cswap
  push_cast
  rw [show x - 1 * (x - y) = y from by ring, show y + 1 * (x - y) = x from by ring]

theorem mkSwapArith_last (xP : ℤ) (k_t : ℕ) (X0 Z0 X1 Z1 : ℤ) (sw : ℕ) :
    (mkSwapArith xP k_t X0 Z0 X1 Z1 sw).2.2.2.2 = k_t := rfl

/-- The RFC 7748 loop body and the MK-tutorial loop body agree exactly on
bit values in `{0, 1}`: the Python tuple swap when the bit differs from the
previous one is the `cswap` by `swap ^ k_t`, and both arithmetic blocks
produce the same reduced values. -/
theorem rfcSwapArith_eq_mkSwapArith (u : ℤ) (k_t sw : ℕ)
    (hk : k_t = 0 ∨ k_t = 1) (hsw : sw = 0 ∨ sw = 1) (x2 z2 x3 z3 : ℤ) :
    rfcSwapArith u k_t x2 z2 x3 z3 sw = mkSwapArith u k_t x2 z2 x3 z3 sw := by
  have key : ∀ p q r s p' q' r' s' : ℤ,
      (p : ZMod pN) = (p' : ZMod pN) → (q : ZMod pN) = (q' : ZMod pN) →
      (r : ZMod pN) = (r' : ZMod pN) → (s : ZMod pN) = (s' : ZMod pN) →
      rfcCore u p q r s = ladder_step p' q' r' s' u := by
    intro p q r s p' q' r' s' h1 h2 h3 h4
    simp only [rfcCore, ladder_step, Prod.mk.injEq]
    refine ⟨?_, ?_, ?_, ?_⟩ <;>
    · rw [emod_eq_emod_iff_cast]
      push_cast [cast_emod_pZ]
      simp only [h1, h2, h3, h4]
      try ring
  rcases hk with rfl | rfl <;> rcases hsw with rfl | rfl
  · simp only [rfcSwapArith, mkSwapArith, Nat.xor_self, cswap_nat_zero]
    rw [if_neg (by decide : ¬((0 : ℕ) ≠ 0))]
    dsimp only []
    rw [key x2 z2 x3 z3 (x2 % pZ) (z2 % pZ) (x3 % pZ) (z3 % pZ)
      (cast_emod_pZ x2).symm (cast_emod_pZ z2).symm
      (cast_emod_pZ x3).symm (cast_emod_pZ z3).symm]
  · simp only [rfcSwapArith, mkSwapArith, Nat.xor_zero, cswap_nat_one]
    rw [if_pos (by decide : (0 : ℕ) ≠ 1)]
    dsimp only []
    rw [key x3 z3 x2 z2 (x3 % pZ) (z3 % pZ) (x2 % pZ) (z2 % pZ)
      (cast_emod_pZ x3).symm (cast_emod_pZ z3).symm
      (cast_emod_pZ x2).symm (cast_emod_pZ z2).symm]
  · simp only [rfcSwapArith, mkSwapArith, Nat.zero_xor, cswap_nat_one]
    rw [if_pos (by decide : (1 : ℕ) ≠ 0)]
    dsimp only []
    rw [key x3 z3 x2 z2 (x3 % pZ) (z3 % pZ) (x2 % pZ) (z2 % pZ)
      (cast_emod_pZ x3).symm (cast_emod_pZ z3).symm
      (cast_emod_pZ x2).symm (cast_emod_pZ z2).symm]
  · simp only [rfcSwapArith, mkSwapArith, Nat.xor_self, cswap_nat_zero]
    rw [if_neg (by decide : ¬((1 : ℕ) ≠ 1))]
    dsimp only []
    rw [key x2 z2 x3 z3 (x2 % pZ) (z2 % pZ) (x3 % pZ) (z3 % pZ)
      (cast_emod_pZ x2).symm (cast_emod_pZ z2).symm
      (cast_emod_pZ x3).symm (cast_emod_pZ z3).symm]

/-- The RFC 7748 and MK-tutorial ladder loops compute identical states from
identical states whose swap flag is a bit. -/
theorem rfcLoop_eq_mkLoop (k : ℕ) (u : ℤ) :
    ∀ fuel x2 z2 x3 z3 (sw : ℕ), sw = 0 ∨ sw = 1 →
      rfcLoop k u fuel x2 z2 x3 z3 sw = mkLoop k u fuel x2 z2 x3 z3 sw := by
  intro fuel
  induction fuel with
  | zero => intro x2 z2 x3 z3 sw _; rfl
  | succ t ih =>
    intro x2 z2 x3 z3 sw hsw
    simp only [rfcLoop, mkLoop]
    rw [rfcSwapArith_eq_mkSwapArith u ((k >>> t) &&& 1) sw (and1_01 _) hsw]
    exact ih _ _ _ _ _ (by rw [mkSwapArith_last]; exact and1_01 _)

/-- The swap flag of the MK loop state stays a bit. -/
theorem mkLoop_sw (k : ℕ) (u : ℤ) :
    ∀ fuel X0 Z0 X1 Z1 (sw : ℕ), sw = 0 ∨ sw = 1 →
      ((mkLoop k u fuel X0 Z0 X1 Z1 sw).2.2.2.2 = 0 ∨
        (mkLoop k u fuel X0 Z0 X1 Z1 sw).2.2.2.2 = 1) := by
  intro fuel
  induction fuel with
  | zero => intro _ _ _ _ sw hsw; exact hsw
  | succ t ih =>
    intro X0 Z0 X1 Z1 sw hsw
    simp only [mkLoop]
    exact ih _ _ _ _ _ (by rw [mkSwapArith_last]; exact and1_01 _)

/-- `MontgomeryLadderRFC7748.scalar_mult` and
`MontgomeryLadderMKTutorial.scalar_mult` agree on every input. -/
theorem rfc_scalar_mult_eq_mk (k : ℕ) (u : ℤ) :
    rfc_scalar_mult k u = mk_scalar_mult k u := by
  simp only [rfc_scalar_mult, mk_scalar_mult]
  rw [rfcLoop_eq_mkLoop k u 255 1 0 u 1 0 (Or.inl rfl)]
  rcases mkLoop_sw k u 255 1 0 u 1 0 (Or.inl rfl) with h | h <;>
  · rw [h]
    norm_num [cswap, ExtendedEdwardsCurve.projective_to_affine]
    rw [emod_eq_emod_iff_cast]
    push_cast [cast_emod_pZ, modinv_cast_inv0]
    try ring

/-- Correspondence between an MK-tutorial ladder state
`(X0, Z0, X1, Z1, swap)` and an optimized-ladder state `(a, b, c, d)`:
after the optimized ladder's post-step `cswap`s, its registers hold the
projective pairs conditionally exchanged by the MK state's swap flag,
modulo p. -/
def ladInv (m : ℤ × ℤ × ℤ × ℤ × ℕ) (s : ℤ × ℤ × ℤ × ℤ) : Prop :=
  (m.2.2.2.2 = 0 ∧ (s.1 : ZMod pN) = (m.1 : ZMod pN) ∧
    (s.2.1 : ZMod pN) = (m.2.2.1 : ZMod pN) ∧
    (s.2.2.1 : ZMod pN) = (m.2.1 : ZMod pN) ∧
    (s.2.2.2 : ZMod pN) = (m.2.2.2.1 : ZMod pN)) ∨
  (m.2.2.2.2 = 1 ∧ (s.1 : ZMod pN) = (m.2.2.1 : ZMod pN) ∧
    (s.2.1 : ZMod pN) = (m.1 : ZMod pN) ∧
    (s.2.2.1 : ZMod pN) = (m.2.2.2.1 : ZMod pN) ∧
    (s.2.2.2 : ZMod pN) = (m.2.1 : ZMod pN))

set_option maxHeartbeats 1000000 in
/-- One optimized-ladder iteration preserves the correspondence with one
MK-tutorial iteration at the same bit. -/
theorem ladder_step_inv (u : ℤ) (k_t : ℕ) (hk : k_t = 0 ∨ k_t = 1)
    (X0 Z0 X1 Z1 : ℤ) (sw : ℕ) (a b c d : ℤ)
    (h : ladInv (X0, Z0, X1, Z1, sw) (a, b, c, d)) :
    ladInv (mkSwapArith u k_t X0 Z0 X1 Z1 sw) (optSwapArith u k_t a b c d) := by
  simp only [ladInv] at h ⊢
  rcases h with ⟨hsw, ha, hb, hc, hd⟩ | ⟨hsw, ha, hb, hc, hd⟩ <;> subst hsw <;>
    rcases hk with rfl | rfl
  · refine Or.inl ⟨rfl, ?_, ?_, ?_, ?_⟩ <;>
    · simp only [mkSwapArith, optSwapArith, ladder_step, cswap, Nat.xor_self]
      push_cast [cast_emod_pZ]
      simp only [ha, hb, hc, hd]
      try ring
  · refine Or.inr ⟨rfl, ?_, ?_, ?_, ?_⟩ <;>
    · simp only [mkSwapArith, optSwapArith, ladder_step, cswap, Nat.zero_xor]
      push_cast [cast_emod_pZ]
      simp only [ha, hb, hc, hd]
      try ring
  · refine Or.inl ⟨rfl, ?_, ?_, ?_, ?_⟩ <;>
    · simp only [mkSwapArith, optSwapArith, ladder_step, cswap, Nat.xor_zero]
      push_cast [cast_emod_pZ]
      simp only [ha, hb, hc, hd]
      try ring
  · refine Or.inr ⟨rfl, ?_, ?_, ?_, ?_⟩ <;>
    · simp only [mkSwapArith, optSwapArith, ladder_step, cswap, Nat.xor_self]
      push_cast [cast_emod_pZ]
      simp only [ha, hb, hc, hd]
      try ring

/-- The correspondence between the MK-tutorial and optimized ladder states
is preserved by the whole loop. -/
theorem ladder_loop_inv (k : ℕ) (u : ℤ) :
    ∀ fuel X0 Z0 X1 Z1 (sw : ℕ) a b c d,
      (sw = 0 ∨ sw = 1) →
      ladInv (X0, Z0, X1, Z1, sw) (a, b, c, d) →
      ladInv (mkLoop k u fuel X0 Z0 X1 Z1 sw) (optLoop k u fuel a b c d) := by
  intro fuel
  induction fuel with
  | zero => intro X0 Z0 X1 Z1 sw a b c d _ h; exact h
  | succ t ih =>
    intro X0 Z0 X1 Z1 sw a b c d hsw h
    simp only [mkLoop, optLoop]
    exact ih _ _ _ _ _ _ _ _ _ (by rw [mkSwapArith_last]; exact and1_01 _)
      (ladder_step_inv u ((k >>> t) &&& 1) (and1_01 _) X0 Z0 X1 Z1 sw a b c d h)

/-- `MontgomeryLadderMKTutorial.scalar_mult` and
`MontgomeryLadderOptimized.scalar_mult` agree on every input. -/
theorem mk_scalar_mult_eq_opt (k : ℕ) (u : ℤ) :
    mk_scalar_mult k u = opt_scalar_mult k u := by
  have h0 : ladInv (1, 0, u, 1, 0) ((1 : ℤ), u, 0, 1) := by
    simp [ladInv]
  have hinv := ladder_loop_inv k u 255 1 0 u 1 0 1 u 0 1 (Or.inl rfl) h0
  simp only [ladInv] at hinv
  simp only [mk_scalar_mult, opt_scalar_mult]
  rcases hinv with ⟨hsw, ha, hb, hc, hd⟩ | ⟨hsw, ha, hb, hc, hd⟩ <;>
  · rw [hsw]
    norm_num [cswap, ExtendedEdwardsCurve.projective_to_affine]
    rw [emod_eq_emod_iff_cast]
    push_cast [cast_emod_pZ, modinv_cast_inv0]
    simp only [ha, hb, hc, hd]
    try ring

/-- C1: on every 32-byte scalar and 32-byte u-coordinate, the three
Montgomery ladder strategies produce the same 32-byte `x25519(k, u)`
output through the shared byte-level driver. -/
theorem C1_ladders_agree (k_bytes u_bytes : List ℕ)
    (hkl : k_bytes.length = 32) (hul : u_bytes.length = 32)
    (hkb : ∀ q ∈ k_bytes, q < 256) (hub : ∀ q ∈ u_bytes, q < 256) :
    x25519 rfc_scalar_mult k_bytes u_bytes
      = x25519 mk_scalar_mult k_bytes u_bytes ∧
    x25519 rfc_scalar_mult k_bytes u_bytes
      = x25519 opt_scalar_mult k_bytes u_bytes := by
  unfold x25519
  refine ⟨by rw [rfc_scalar_mult_eq_mk], ?_⟩
  rw [rfc_scalar_mult_eq_mk, mk_scalar_mult_eq_opt]

/-- Witness for C1 at the scalar of all-ones bytes and the base point
u = 9. -/
theorem C1_ladders_agree_witness :
    ((List.replicate 32 1).length = 32 ∧
      (9 :: List.replicate 31 0).length = 32 ∧
      (∀ q ∈ List.replicate 32 1, q < 256) ∧
      (∀ q ∈ 9 :: List.replicate 31 0, q < 256)) ∧
    (x25519 rfc_scalar_mult (List.replicate 32 1) (9 :: List.replicate 31 0)
        = x25519 mk_scalar_mult (List.replicate 32 1) (9 :: List.replicate 31 0) ∧
      x25519 rfc_scalar_mult (List.replicate 32 1) (9 :: List.replicate 31 0)
        = x25519 opt_scalar_mult (List.replicate 32 1) (9 :: List.replicate 31 0)) :=
  ⟨⟨by decide, by decide, by decide, by decide⟩,
    C1_ladders_agree (List.replicate 32 1) (9 :: List.replicate 31 0)
      (by decide) (by decide) (by decide) (by decide)⟩
